import Mathlib

/-!
Verification of the schema-to-mock-data pipeline of a small OpenAPI mock
server.  The development shallowly embeds the four Rust source files:

* `components/models/object_reference_handler.rs` — schema flattener and
  value synthesizer (`get_body_by_object_schema`, `get_values_from_property`,
  `get_property_value_object`, `is_single_property`);
* `components/composite_objects.rs` — `PropertyValue` with its `Serialize`
  priority, the document reconstructor (`insert_nested_value`,
  `create_valid_json_from_hashmap`), and the request/response descriptors;
* `components/request_validator.rs` — `validate_request` and
  `check_difference`;
* `main.rs` — route-table construction (`get_paths_from_spec`,
  `get_response_object_schema_by_operation`,
  `get_request_object_schema_by_operation`) and the per-request handler
  `echo`.

Modelling conventions:

* JSON values are the inductive `Json`; JSON numbers are modelled as `Rat`
  (the code never computes with numbers, it only stores and compares them;
  the serde i64/f64 distinction is collapsed, which is observably harmless
  here because the only number comparisons feed a branch whose two arms have
  the same observable effect).
* Rust panics (every `.unwrap()` on `None`/`Err`, and `rand`'s
  `gen_range` on an empty range) are modelled as `Except PanicErr`, with the
  single error value `PanicErr.panic`.
* Schema references (`ObjectOrReference`) are modelled as either an inline
  resolved schema or a dangling name; `resolve` succeeds exactly on inline
  references.  Cyclic component references (on which the Rust loop would
  never terminate) are therefore not representable; no claim concerns them.
* `rand::thread_rng().gen_range(0..n)` is modelled by an oracle: the caller
  supplies the raw draw `r : Nat` and the drawn index is `r % n` (with a
  panic when `n = 0`, as in `rand`).  The flattener keys its oracle
  `rng : String → Nat` by the dotted key being synthesized, modelling one
  independent draw per synthesis site.
* The flattener's `while let Some(..) = stack.pop()` loop is embedded with
  explicit fuel (`msizeSchema` of the root is a proven-sufficient bound), so
  that it both terminates structurally and evaluates inside the kernel.
* `HashMap<String, PropertyValue>` is an association list with
  last-writer-wins insertion (`hmInsert`); iteration order of the Rust
  `HashMap` is unspecified, and the list order stands in for one such order.
* `serde_json_diff::values` composed with `check_difference` is modelled by
  `check_difference` below, which collects exactly the keys the Rust pair
  reports: keys of the expected document missing from the actual one, found
  recursively through entries where both sides are (unequal) objects.
-/

/-- JSON values (`serde_json::Value`).  Objects are association lists; the
maps produced by serde have unique keys, which theorems assume explicitly
via `jsonWF` where it matters. -/
inductive Json where
  | null
  | bool (b : Bool)
  | num (q : Rat)
  | str (s : String)
  | arr (elems : List Json)
  | obj (entries : List (String × Json))

mutual

/-- Structural equality of JSON values (`serde_json::Value` equality). -/
def Json.beq : Json → Json → Bool
  | .null, .null => true
  | .bool a, .bool b => a = b
  | .num a, .num b => a = b
  | .str a, .str b => a = b
  | .arr a, .arr b => Json.beqArr a b
  | .obj a, .obj b => Json.beqObj a b
  | _, _ => false

def Json.beqArr : List Json → List Json → Bool
  | [], [] => true
  | a :: as_, b :: bs => Json.beq a b && Json.beqArr as_ bs
  | _, _ => false

def Json.beqObj : List (String × Json) → List (String × Json) → Bool
  | [], [] => true
  | (k, v) :: as_, (k', v') :: bs => k = k' && Json.beq v v' && Json.beqObj as_ bs
  | _, _ => false

end

mutual

theorem Json.beq_iff : ∀ a b, Json.beq a b = true ↔ a = b
  | .null, b => by cases b <;> simp [Json.beq]
  | .bool a, b => by cases b <;> simp [Json.beq]
  | .num a, b => by cases b <;> simp [Json.beq]
  | .str a, b => by cases b <;> simp [Json.beq]
  | .arr a, b => by
      cases b <;> simp [Json.beq]
      exact Json.beqArr_iff a _
  | .obj a, b => by
      cases b <;> simp [Json.beq]
      exact Json.beqObj_iff a _

theorem Json.beqArr_iff : ∀ a b, Json.beqArr a b = true ↔ a = b
  | [], [] => by simp [Json.beqArr]
  | [], _ :: _ => by simp [Json.beqArr]
  | _ :: _, [] => by simp [Json.beqArr]
  | a :: as_, b :: bs => by
      simp [Json.beqArr, Json.beq_iff a b, Json.beqArr_iff as_ bs]

theorem Json.beqObj_iff : ∀ a b, Json.beqObj a b = true ↔ a = b
  | [], [] => by simp [Json.beqObj]
  | [], _ :: _ => by simp [Json.beqObj]
  | _ :: _, [] => by simp [Json.beqObj]
  | (k, v) :: as_, (k', v') :: bs => by
      simp [Json.beqObj, Json.beq_iff v v', Json.beqObj_iff as_ bs, Prod.ext_iff, and_assoc]

end

instance : DecidableEq Json := fun a b =>
  decidable_of_iff (Json.beq a b = true) (Json.beq_iff a b)

/-- Lookup in a JSON object / string-keyed association list
(`serde_json::Map::get`, `BTreeMap::get`). -/
def mapGet {α : Type} : List (String × α) → String → Option α
  | [], _ => none
  | (k', v) :: rest, k => if k' = k then some v else mapGet rest k

/-- Replace-or-append insertion into a string-keyed association list
(`serde_json::Map::insert`). -/
def mapSet {α : Type} : List (String × α) → String → α → List (String × α)
  | [], k, v => [(k, v)]
  | (k', v') :: rest, k, v =>
      if k' = k then (k, v) :: rest else (k', v') :: mapSet rest k v

/-- One synthesized leaf (`PropertyValue` in `composite_objects.rs`):
a record of optional variants, at most one of which is intended to be set. -/
structure PropertyValue where
  bool : Option Bool
  int : Option Int
  number : Option Rat
  string : Option String
  serde_value : Option Json
deriving DecidableEq

/-- The `Serialize` impl of `PropertyValue`: first populated variant wins, in
the order bool, number, int, string, serde_value; empty string otherwise. -/
def PropertyValue.toJson (v : PropertyValue) : Json :=
  match v.bool with
  | some b => .bool b
  | none =>
    match v.number with
    | some q => .num q
    | none =>
      match v.int with
      | some i => .num (i : Rat)
      | none =>
        match v.string with
        | some s => .str s
        | none =>
          match v.serde_value with
          | some j => j
          | none => .str ""

instance {e a : Type} [DecidableEq e] [DecidableEq a] : DecidableEq (Except e a) := fun x y =>
  match x, y with
  | .ok u, .ok v =>
      if h : u = v then isTrue (by rw [h]) else isFalse (fun hc => by cases hc; exact h rfl)
  | .error u, .error v =>
      if h : u = v then isTrue (by rw [h]) else isFalse (fun hc => by cases hc; exact h rfl)
  | .ok _, .error _ => isFalse (fun hc => by cases hc)
  | .error _, .ok _ => isFalse (fun hc => by cases hc)

/-- A Rust panic (`unwrap` on `None`/`Err`, `gen_range` on an empty range). -/
inductive PanicErr where
  | panic
deriving DecidableEq

/-- The dynamic (`Box<dyn Any>`) value returned by `get_values_from_property`.
The constructors record the *runtime type* of the boxed Rust value: note that
the canned `number` literal `1.2` in the source is an `f64`, while
`get_property_value_object` only downcasts `f32`, so `f64` values fall
through to the `"Unknown"` default.  The `f32` constructor exists because the
downcast checks for it; no code path ever boxes one. -/
inductive AnyValue where
  | str (s : String)
  | i32 (i : Int)
  | f32 (q : Rat)
  | f64 (q : Rat)
  | boolv (b : Bool)
  | json (j : Json)
deriving DecidableEq

/-- Primitive schema type tags (`oas3::spec::SchemaType`). -/
inductive SchemaType where
  | string | integer | number | boolean | array | object | null
deriving DecidableEq

/-- A schema's set of allowed types (`oas3::spec::SchemaTypeSet`). -/
inductive SchemaTypeSet where
  | single (t : SchemaType)
  | multiple (ts : List SchemaType)
deriving DecidableEq

/-- `SchemaTypeSet::contains`. -/
def SchemaTypeSet.setContains : SchemaTypeSet → SchemaType → Bool
  | .single t, t' => t = t'
  | .multiple ts, t' => ts.any (fun t => t = t')

/-- `SchemaTypeSet::is_array_or_nullable_array`: the type set is `array`,
possibly together with `null`. -/
def SchemaTypeSet.is_array_or_nullable_array : SchemaTypeSet → Bool
  | .single t => t = SchemaType.array
  | .multiple ts =>
      ts.any (fun t => t = SchemaType.array) &&
      ts.all (fun t => t = SchemaType.array || t = SchemaType.null)

mutual

/-- A resolved schema fragment (`oas3::spec::ObjectSchema`), restricted to
the fields the core reads. -/
inductive ObjectSchema where
  | mk (schema_type : Option SchemaTypeSet)
       (properties : List (String × SchemaRef))
       (required : List String)
       (exampleVal : Option Json)
       (enum_values : List String)
       (items : Option SchemaRef)

/-- `ObjectOrReference<ObjectSchema>`: either an inline (already resolved)
schema or a reference that does not resolve against the spec. -/
inductive SchemaRef where
  | inline (s : ObjectSchema)
  | dangling (name : String)

end

def ObjectSchema.schema_type : ObjectSchema → Option SchemaTypeSet
  | .mk st _ _ _ _ _ => st

def ObjectSchema.properties : ObjectSchema → List (String × SchemaRef)
  | .mk _ ps _ _ _ _ => ps

def ObjectSchema.required : ObjectSchema → List String
  | .mk _ _ r _ _ _ => r

def ObjectSchema.exampleVal : ObjectSchema → Option Json
  | .mk _ _ _ e _ _ => e

def ObjectSchema.enum_values : ObjectSchema → List String
  | .mk _ _ _ _ ev _ => ev

def ObjectSchema.items : ObjectSchema → Option SchemaRef
  | .mk _ _ _ _ _ it => it

/-- `ObjectOrReference::resolve(&spec)`: succeeds exactly on inline schemas. -/
def SchemaRef.resolve : SchemaRef → Option ObjectSchema
  | .inline s => some s
  | .dangling _ => none

/-- `is_single_property` from `object_reference_handler.rs`, applied to the
already-unwrapped type set (the source's `schema_type.as_ref().unwrap()` is
modelled at each call site as a match whose `none` arm panics). -/
def is_single_property (ts : SchemaTypeSet) : Bool :=
  ts.setContains .string || ts.setContains .integer ||
  ts.setContains .number || ts.setContains .boolean

/-- `get_values_from_property`: explicit example verbatim, else a uniform
draw from the enum list excluding its last entry (`gen_range(0..len-1)`,
panicking when that range is empty), else a canned literal per type tag.
`r` is the raw random draw consumed by the one `gen_range` call. -/
def get_values_from_property (type_set : SchemaTypeSet) (exampleVal : Option Json)
    (enum_values : List String) (r : Nat) : Except PanicErr (Option AnyValue) :=
  match exampleVal with
  | some e => .ok (some (AnyValue.json e))
  | none =>
    if !enum_values.isEmpty then
      if h : enum_values.length - 1 = 0 then .error .panic
      else
        have hlt : r % (enum_values.length - 1) < enum_values.length - 1 :=
          Nat.mod_lt _ (Nat.pos_of_ne_zero h)
        have hlen : r % (enum_values.length - 1) < enum_values.length :=
          lt_of_lt_of_le hlt (Nat.sub_le _ _)
        .ok (some (AnyValue.str (enum_values.get ⟨r % (enum_values.length - 1), hlen⟩)))
    else
      match type_set with
      | .single .boolean => .ok (some (AnyValue.boolv true))
      | .single .string => .ok (some (AnyValue.str "asd"))
      | .single .number => .ok (some (AnyValue.f64 (1.2 : Rat)))
      | .single .integer => .ok (some (AnyValue.i32 1))
      | _ => .ok none

/-- `get_property_value_object`: downcast the boxed value to build a
`PropertyValue`.  The downcast chain checks `String`, `i32`, `f32`, `bool`,
`Value`; anything else — in particular the `f64` canned number literal —
defaults to the string `"Unknown"`. -/
def get_property_value_object : AnyValue → PropertyValue
  | .str s => ⟨none, none, none, some s, none⟩
  | .i32 i => ⟨none, some i, none, none, none⟩
  | .f32 q => ⟨none, none, some q, none, none⟩
  | .boolv b => ⟨some b, none, none, none, none⟩
  | .json j => ⟨none, none, none, none, some j⟩
  | .f64 _ => ⟨none, none, none, some "Unknown", none⟩

mutual

/-- Structural size of a schema, used as a proven-sufficient fuel bound for
the flattener's work-list loop. -/
def msizeSchema : ObjectSchema → Nat
  | .mk _ props _ _ _ items => 1 + msizeProps props + msizeOptRef items

def msizeProps : List (String × SchemaRef) → Nat
  | [] => 0
  | (_, r) :: rest => 1 + msizeRef r + msizeProps rest

def msizeRef : SchemaRef → Nat
  | .inline s => 1 + msizeSchema s
  | .dangling _ => 1

def msizeOptRef : Option SchemaRef → Nat
  | none => 0
  | some r => 1 + msizeRef r

end

/-- Total size of the schemas on the work list. -/
def stackMeasure : List (String × ObjectSchema) → Nat
  | [] => 0
  | (_, obj) :: rest => msizeSchema obj + stackMeasure rest

/-- `HashMap::insert`: last writer wins. -/
def hmInsert : List (String × PropertyValue) → String → PropertyValue →
    List (String × PropertyValue)
  | [], k, v => [(k, v)]
  | (k', v') :: rest, k, v =>
      if k' = k then (k, v) :: rest else (k', v') :: hmInsert rest k v

/-- Key membership in the flat table. -/
def hmHasKey (m : List (String × PropertyValue)) (k : String) : Bool :=
  m.any (fun p => p.1 = k)

/-- Dotted-key extension: `format!("{}.{}", key_prefix, k)`, or `k` alone when
the accumulated key is empty. -/
def joinKey (pre k : String) : String :=
  if pre.isEmpty then k else pre ++ "." ++ k

/-- Whether `get_values_from_property` returns `Ok (Some _)` — independent of
the random draw.  (`Ok None` is a silent skip at property sites; the
single-entry-enum panic is a third outcome covered separately.) -/
def synthSome (ts : SchemaTypeSet) (ex : Option Json) (enums : List String) : Bool :=
  ex.isSome ||
  (!enums.isEmpty && decide (enums.length - 1 ≠ 0)) ||
  (enums.isEmpty &&
    (match ts with
     | .single .boolean | .single .string | .single .number | .single .integer => true
     | _ => false))

/-- The `for (k, v) in properties.iter()` loop body of
`get_body_by_object_schema`: resolve each property (panicking on a dangling
reference), skip names outside the parent's `required` set, synthesize and
insert scalar properties (passing the *parent's* enum list), and collect the
rest as work-list pushes in iteration order. -/
def processProps (pre : String) (req : List String) (enums : List String)
    (rng : String → Nat) :
    List (String × SchemaRef) → List (String × PropertyValue) →
    Except PanicErr (List (String × PropertyValue) × List (String × ObjectSchema))
  | [], acc => .ok (acc, [])
  | (k, ref) :: rest, acc =>
    match ref.resolve with
    | none => .error .panic
    | some po =>
      if k ∈ req then
        match po.schema_type with
        | none => .error .panic
        | some ts =>
          if is_single_property ts then
            match get_values_from_property ts po.exampleVal enums (rng (joinKey pre k)) with
            | .error e => .error e
            | .ok none => processProps pre req enums rng rest acc
            | .ok (some v) =>
                processProps pre req enums rng rest
                  (hmInsert acc (joinKey pre k) (get_property_value_object v))
          else
            match processProps pre req enums rng rest acc with
            | .error e => .error e
            | .ok (acc', pushes) => .ok (acc', (joinKey pre k, po) :: pushes)
      else processProps pre req enums rng rest acc

/-- The scalar-insertion step for a node without properties: if the node is
scalar-eligible, synthesize a value (unwrapping the `Option`, so a `None`
result panics) and insert it at the accumulated key; otherwise leave the
table unchanged. -/
def bareInsert (rng : String → Nat) (pre : String) (obj : ObjectSchema)
    (ts : SchemaTypeSet) (acc : List (String × PropertyValue)) :
    Except PanicErr (List (String × PropertyValue)) :=
  if is_single_property ts then
    match get_values_from_property ts obj.exampleVal obj.enum_values (rng pre) with
    | .error e => .error e
    | .ok none => .error .panic
    | .ok (some v) => .ok (hmInsert acc pre (get_property_value_object v))
  else .ok acc

/-- The `while let Some((key_prefix, obj)) = stack.pop()` loop of
`get_body_by_object_schema`, with explicit fuel.  The list head is the stack
top; pushed properties are reversed so the last push is popped first, as in
the source.  Fuel exhaustion (the first clause matching a nonempty stack)
is unreachable whenever the initial fuel bounds the stack measure. -/
def flattenLoopF (rng : String → Nat) :
    Nat → List (String × ObjectSchema) → List (String × PropertyValue) →
    Except PanicErr (List (String × PropertyValue))
  | _, [], acc => .ok acc
  | 0, _ :: _, _ => .error .panic
  | fuel + 1, (pre, obj) :: rest, acc =>
    if obj.properties.isEmpty then
      match obj.schema_type with
      | none => .error .panic
      | some ts =>
        match bareInsert rng pre obj ts acc with
        | .error e => .error e
        | .ok acc' =>
          if ts.is_array_or_nullable_array then
            match obj.items with
            | some iref =>
              match iref.resolve with
              | none => .error .panic
              | some s => flattenLoopF rng fuel ((pre ++ "$array", s) :: rest) acc'
            | none => flattenLoopF rng fuel rest acc'
          else flattenLoopF rng fuel rest acc'
    else
      match processProps pre obj.required obj.enum_values rng obj.properties acc with
      | .error e => .error e
      | .ok (acc', pushes) => flattenLoopF rng fuel (pushes.reverse ++ rest) acc'

/-- `get_body_by_object_schema`: flatten a schema into the dotted-key table of
synthesized required leaves.  `rng` supplies one raw random draw per dotted
key (consumed only by enum sampling). -/
def get_body_by_object_schema (obj_original : ObjectSchema) (rng : String → Nat) :
    Except PanicErr (List (String × PropertyValue)) :=
  flattenLoopF rng (msizeSchema obj_original) [("", obj_original)] []

/-- Split a character list at every occurrence of the separator (Rust
`str::split` semantics: `""` yields one empty segment, separators at the
edges yield empty segments). -/
def splitChars (sep : Char) : List Char → List (List Char)
  | [] => [[]]
  | c :: rest =>
    match splitChars sep rest with
    | [] => if c = sep then [[], []] else [[c]]
    | h :: t => if c = sep then [] :: h :: t else (c :: h) :: t

/-- `key.split('.')` as used by `create_valid_json_from_hashmap`. -/
def splitDots (s : String) : List String :=
  (splitChars '.' s.toList).map (fun cs => String.mk cs)

/-- `keys[0].ends_with("$array")`. -/
def hasArraySuffix (s : String) : Bool :=
  "$array".toList.isSuffixOf s.toList

/-- `keys[0].split("$").next().unwrap()`: everything before the first `$`. -/
def beforeDollar (s : String) : String :=
  String.mk (s.toList.takeWhile (fun c => c ≠ '$'))

/-- `insert_nested_value` from `composite_objects.rs`.  Walks/creates nested
objects for all but the last segment; an `$array`-marked *non-final* segment
gets-or-creates a one-element array of an object and descends into that
element; the *final* segment — array-marked or not — just sets the
(stripped) key to the serialized value.  Panics (`unwrap`) on an empty key
list, on a non-array value already stored under an array-marked segment, and
on an empty array stored there. -/
def insert_nested_value (root_map : List (String × Json)) (keys : List String)
    (value : PropertyValue) : Except PanicErr (List (String × Json)) :=
  match keys with
  | [] => .error .panic
  | k0 :: rest =>
    let is_array := hasArraySuffix k0
    let key := if is_array then beforeDollar k0 else k0
    if rest.isEmpty then
      .ok (mapSet root_map key value.toJson)
    else
      if is_array then
        match mapGet root_map key with
        | none =>
          match insert_nested_value [] rest value with
          | .error e => .error e
          | .ok x => .ok (mapSet root_map key (.arr [Json.obj x]))
        | some (.arr []) => .error .panic
        | some (.arr (Json.obj x :: erest)) =>
          match insert_nested_value x rest value with
          | .error e => .error e
          | .ok x' => .ok (mapSet root_map key (.arr (Json.obj x' :: erest)))
        | some (.arr (_ :: _)) => .ok root_map
        | some _ => .error .panic
      else
        match mapGet root_map key with
        | none =>
          match insert_nested_value [] rest value with
          | .error e => .error e
          | .ok n => .ok (mapSet root_map key (.obj n))
        | some (.obj nested) =>
          match insert_nested_value nested rest value with
          | .error e => .error e
          | .ok n => .ok (mapSet root_map key (.obj n))
        | some _ => .ok root_map

/-- `create_valid_json_from_hashmap`: rebuild the nested document by
inserting every table entry along its dot-split key. -/
def create_valid_json_from_hashmap
    (map : List (String × PropertyValue)) : Except PanicErr (List (String × Json)) :=
  map.foldlM (fun root kv => insert_nested_value root (splitDots kv.1) kv.2) []

/-- `missing_keys.join(", ")`. -/
def joinCommaSep : List String → String
  | [] => ""
  | [s] => s
  | s :: rest => s ++ ", " ++ joinCommaSep rest

mutual

/-- `check_difference` composed with `serde_json_diff::values(actual,
expected)`: the ordered list of keys that the validator reports as missing.
A key of the expected object contributes itself when absent from the actual
object; when both objects hold unequal objects under the key, the nested
objects are diffed recursively; every other difference (extra keys of the
actual object, scalar/type/array mismatches) contributes nothing. -/
def check_difference : List (String × Json) → List (String × Json) → List String
  | _, [] => []
  | actual, (k, ev) :: rest =>
    (match mapGet actual k with
     | none => [k]
     | some av => if av = ev then [] else check_difference_value av ev) ++
    check_difference actual rest

/-- The `EntryDifference::Value` arm of `check_difference`: recurse only when
the differing values are both objects. -/
def check_difference_value : Json → Json → List String
  | .obj ao, .obj eo => check_difference ao eo
  | _, _ => []

end

/-- The validation failure payload (`ValidationError`). -/
structure ValidationError where
  error_message : String
deriving DecidableEq

/-- A `RequestObject` (synthesized request descriptor).  The `body` is kept
as parsed JSON rather than a serialized string; the source serializes the
reconstructed map to a string and `validate_request` parses it back, a
round trip that is the identity on the JSON level. -/
structure RequestObject where
  headers : List String
  query_params : List (String × String)
  body : Option Json
deriving DecidableEq

def RequestObject.init : RequestObject := ⟨[], [], none⟩

/-- `validate_request`: parse both bodies as top-level JSON objects
(panicking on a missing stored body, an unparseable incoming body — modelled
as `none` — or a non-object on either side), then fail exactly when the
diff reports missing keys, with the message `"Missing keys: "` followed by
the comma-joined list. -/
def validate_request (request_object : RequestObject) (body : Option Json) :
    Except PanicErr (Except ValidationError Bool) :=
  match body with
  | none => .error .panic
  | some parsed =>
    match parsed with
    | .obj actual =>
      match request_object.body with
      | none => .error .panic
      | some parsed2 =>
        match parsed2 with
        | .obj expected =>
          if actual = expected then .ok (.ok true)
          else
            let missing_keys := check_difference actual expected
            if missing_keys.isEmpty then .ok (.ok true)
            else .ok (.error ⟨"Missing keys: " ++ joinCommaSep missing_keys⟩)
        | _ => .error .panic
    | _ => .error .panic

/-- HTTP methods relevant to routing.  The route table only ever holds GET
and POST; the other constructors exist so that requests (and spec path items)
using them can be expressed. -/
inductive Method where
  | GET | POST | PUT | DELETE | PATCH
deriving DecidableEq

/-- A media type entry (`oas3::spec::MediaType`), restricted to its schema. -/
structure MediaType where
  schema : Option SchemaRef

/-- A resolved response (`oas3::spec::Response`), restricted to its content
map. -/
structure ResponseSpec where
  content : List (String × MediaType)

/-- A resolved request body (`oas3::spec::RequestBody`), restricted to its
content map. -/
structure RequestBodySpec where
  content : List (String × MediaType)

/-- `ObjectOrReference<RequestBody>`. -/
inductive RequestBodyRef where
  | inline (rb : RequestBodySpec)
  | dangling (name : String)

/-- An operation (`oas3::spec::Operation`), restricted to the fields read by
`main.rs`: its optional request body and its (already resolved) responses
map. -/
structure Operation where
  request_body : Option RequestBodyRef
  responses : List (String × ResponseSpec)

/-- A path item: one optional operation per HTTP method.  `main.rs` only ever
reads `get` and `post`; the other fields are carried to show they are
ignored. -/
structure PathItem where
  get : Option Operation
  post : Option Operation
  put : Option Operation
  delete : Option Operation
  patch : Option Operation

/-- The parsed OpenAPI document (`oas3::Spec`), restricted to its paths. -/
structure Spec where
  paths : Option (List (String × PathItem))

/-- A `ResponseObject` (synthesized response descriptor).  As with
`RequestObject`, the body is kept as parsed JSON instead of its serialized
string. -/
structure ResponseObject where
  response : Option Json
  status_code : Option Int
deriving DecidableEq

/-- `RequestObject::create_request_object_by_object_schema`: flatten and
reconstruct the schema into a stored body, or return the empty descriptor
when there is no schema. -/
def create_request_object_by_object_schema (object_schema : Option ObjectSchema)
    (rng : String → Nat) : Except PanicErr RequestObject :=
  match object_schema with
  | none => .ok RequestObject.init
  | some obj =>
    match get_body_by_object_schema obj rng with
    | .error e => .error e
    | .ok body =>
      match create_valid_json_from_hashmap body with
      | .error e => .error e
      | .ok map => .ok ⟨[], [], some (.obj map)⟩

/-- `ResponseObject::create_response_object_by_object_schema`: flatten and
reconstruct the schema into a stored response with status 200, or the empty
descriptor when there is no schema. -/
def create_response_object_by_object_schema (object_schema : Option ObjectSchema)
    (rng : String → Nat) : Except PanicErr ResponseObject :=
  match object_schema with
  | none => .ok ⟨none, none⟩
  | some obj =>
    match get_body_by_object_schema obj rng with
    | .error e => .error e
    | .ok body =>
      match create_valid_json_from_hashmap body with
      | .error e => .error e
      | .ok map => .ok ⟨some (.obj map), some 200⟩

/-- `get_response_object_schema_by_operation`: look up the 200 response's
`application/json` schema.  A missing 200 response, or a schema reference
that fails to resolve (`.ok()`), degrades to a schema-less descriptor; a 200
response whose json content or schema field is absent makes the whole
function return `none` (the `?` operator). -/
def get_response_object_schema_by_operation (operation : Operation)
    (rng : String → Nat) : Except PanicErr (Option ResponseObject) :=
  match mapGet operation.responses "200" with
  | none =>
    match create_response_object_by_object_schema none rng with
    | .error e => .error e
    | .ok r => .ok (some r)
  | some a =>
    match mapGet a.content "application/json" with
    | none => .ok none
    | some mt =>
      match mt.schema with
      | none => .ok none
      | some sref =>
        match create_response_object_by_object_schema sref.resolve rng with
        | .error e => .error e
        | .ok r => .ok (some r)

/-- `get_request_object_schema_by_operation`: as above, for the request
body.  An absent request body yields `none`; a request-body reference that
fails to resolve degrades to the empty descriptor. -/
def get_request_object_schema_by_operation (operation : Operation)
    (rng : String → Nat) : Except PanicErr (Option RequestObject) :=
  match operation.request_body with
  | none => .ok none
  | some rbref =>
    match rbref with
    | .dangling _ =>
      match create_request_object_by_object_schema none rng with
      | .error e => .error e
      | .ok r => .ok (some r)
    | .inline rb =>
      match mapGet rb.content "application/json" with
      | none => .ok none
      | some mt =>
        match mt.schema with
        | none => .ok none
        | some sref =>
          match create_request_object_by_object_schema sref.resolve rng with
          | .error e => .error e
          | .ok r => .ok (some r)

/-- One route-table entry (`Path` in `composite_objects.rs`; renamed here
because Mathlib already declares `Path`). -/
structure RoutePath where
  request_object : Option RequestObject
  response_object : Option ResponseObject
  path : String
  method : Method
deriving DecidableEq

/-- One arm of the loop body of `get_paths_from_spec`: build the (at most
one) route entry for a declared operation, synthesizing its response and
request descriptors. -/
def buildPart (rng : String → Nat) (path_str : String) (m : Method) :
    Option Operation → Except PanicErr (List RoutePath)
  | none => .ok []
  | some op =>
    match get_response_object_schema_by_operation op rng with
    | .error e => .error e
    | .ok ro =>
      match get_request_object_schema_by_operation op rng with
      | .error e => .error e
      | .ok rq => .ok [⟨rq, ro, path_str, m⟩]

/-- The loop of `get_paths_from_spec`: for each path item, add a GET entry if
a GET operation is declared, then a POST entry if a POST operation is
declared.  Other methods are never consulted. -/
def buildPaths (rng : String → Nat) :
    List (String × PathItem) → Except PanicErr (List RoutePath)
  | [] => .ok []
  | (path_str, item) :: rest =>
    match buildPart rng path_str .GET item.get with
    | .error e => .error e
    | .ok gets =>
      match buildPart rng path_str .POST item.post with
      | .error e => .error e
      | .ok posts =>
        match buildPaths rng rest with
        | .error e => .error e
        | .ok rest' => .ok (gets ++ posts ++ rest')

/-- `get_paths_from_spec`: the per-request route table. -/
def get_paths_from_spec (spec : Spec) (rng : String → Nat) :
    Except PanicErr (List RoutePath) :=
  match spec.paths with
  | none => .ok []
  | some ps => buildPaths rng ps

/-- The body of an HTTP response produced by `echo`: a JSON document, a
literal string (`"No response"` or a validation error message), or the empty
body of the 404 branch. -/
inductive RespBody where
  | fromJson (j : Json)
  | literal (s : String)
  | empty
deriving DecidableEq

/-- An HTTP response: status code, optional `Content-Type` header value, and
body. -/
structure HttpResponse where
  status : Nat
  content_type : Option String
  body : RespBody
deriving DecidableEq

/-- The route-matching loop of `echo`: the first entry matching the request
method and path wins.  A matching POST validates the body first — a
validation failure is answered with status 200 and the error message.
A match whose `response_object` is `None` falls through to later entries;
a present `response_object` is served with status 200, its body defaulting
to the literal `"No response"`.  No match at all yields 404 with an empty
body and no `Content-Type` header. -/
def serveLoop : List RoutePath → Method → String → Option Json →
    Except PanicErr HttpResponse
  | [], _, _, _ => .ok ⟨404, none, .empty⟩
  | p :: rest, m, url, body =>
    if m = p.method ∧ url = p.path then
      let served : Except PanicErr HttpResponse :=
        match p.response_object with
        | some ro =>
          .ok ⟨200, some "application/json",
               match ro.response with
               | some j => .fromJson j
               | none => .literal "No response"⟩
        | none => serveLoop rest m url body
      if p.method = Method.POST then
        match p.request_object with
        | none => .error .panic
        | some ro =>
          match validate_request ro body with
          | .error e => .error e
          | .ok (.error err) =>
            .ok ⟨200, some "application/json", .literal err.error_message⟩
          | .ok (.ok _) => served
      else served
    else serveLoop rest m url body

/-- `echo`: build the route table from the spec (the file load itself is
outside the model) and serve the request.  `body` is the parsed request
body, `none` standing for an unparseable body string. -/
def echo (spec : Spec) (rng : String → Nat) (m : Method) (url : String)
    (body : Option Json) : Except PanicErr HttpResponse :=
  match get_paths_from_spec spec rng with
  | .error e => .error e
  | .ok paths => serveLoop paths m url body

theorem isEmpty_false_of_two_le {l : List String} (h : 2 ≤ l.length) :
    l.isEmpty = false := by
  cases l with
  | nil => simp at h
  | cons a t => simp [List.isEmpty]

/-- C2: for an enum list of length at least two (and no example), value
synthesis draws the index `r % (length - 1)`, which always lies in
`[0, length-1)` — so, for duplicate-free lists, the last entry is never
returned — and every index in that range is attainable (taking `r = i`
draws index `i`); for a single-entry list the empty `gen_range` range makes
the operation fail deterministically, for every draw and type set. -/
theorem enum_selection_excludes_last (enum_values : List String)
    (ts : SchemaTypeSet) (r : Nat) :
    (2 ≤ enum_values.length →
      get_values_from_property ts none enum_values r =
        .ok (some (AnyValue.str (enum_values.getD (r % (enum_values.length - 1)) ""))) ∧
      r % (enum_values.length - 1) < enum_values.length - 1 ∧
      (∀ i, i < enum_values.length - 1 → i % (enum_values.length - 1) = i) ∧
      (enum_values.Nodup →
        enum_values.getD (r % (enum_values.length - 1)) "" ≠
          enum_values.getD (enum_values.length - 1) "")) ∧
    (enum_values.length = 1 →
      get_values_from_property ts none enum_values r = .error .panic) := by
  constructor
  · intro h2
    have hne : enum_values.isEmpty = false := isEmpty_false_of_two_le h2
    have hsub : enum_values.length - 1 ≠ 0 := by omega
    have hlt : r % (enum_values.length - 1) < enum_values.length - 1 :=
      Nat.mod_lt _ (Nat.pos_of_ne_zero hsub)
    have hlen : r % (enum_values.length - 1) < enum_values.length := by omega
    refine ⟨?_, hlt, ?_, ?_⟩
    · simp only [get_values_from_property, hne, Bool.not_false, if_true, dif_neg hsub]
      rw [List.getD_eq_getElem _ _ hlen]
      rfl
    · intro i hi
      exact Nat.mod_eq_of_lt hi
    · intro hnd
      have hlast : enum_values.length - 1 < enum_values.length := by omega
      rw [List.getD_eq_getElem _ _ hlen, List.getD_eq_getElem _ _ hlast]
      intro hEq
      have := (List.Nodup.getElem_inj_iff hnd).mp hEq
      omega
  · intro h1
    have hne : enum_values.isEmpty = false := by
      cases enum_values with
      | nil => simp at h1
      | cons a t => simp [List.isEmpty]
    have hz : enum_values.length - 1 = 0 := by omega
    simp only [get_values_from_property, hne, Bool.not_false, if_true, dif_pos hz]

theorem enum_selection_excludes_last_witness :
    get_values_from_property (.single .string) none ["a", "b", "c"] 4 =
      .ok (some (AnyValue.str "a")) ∧
    get_values_from_property (.single .string) none ["only"] 0 = .error .panic := by
  constructor
  · have h := (enum_selection_excludes_last ["a", "b", "c"] (.single .string) 4).1
      (by decide)
    simpa using h.1
  · exact (enum_selection_excludes_last ["only"] (.single .string) 0).2 (by decide)

/-- C5: value synthesis resolves in a fixed order.  (1) An explicit example
of any JSON shape is returned verbatim, regardless of the type set and of
any enum list; (2) otherwise a non-empty enum list is sampled (yielding an
enum entry below the last index, or the empty-range panic), regardless of
the type set; (3) otherwise a canned literal per single type tag: the
placeholder string `"asd"`, the decimal literal `1.2` (boxed as `f64`),
the integer literal `1`, and `true`. -/
theorem value_synthesis_order (ts : SchemaTypeSet) (ex : Option Json)
    (enums : List String) (r : Nat) :
    (∀ e, ex = some e →
      get_values_from_property ts ex enums r = .ok (some (AnyValue.json e))) ∧
    (ex = none → enums ≠ [] →
      get_values_from_property ts ex enums r = .error .panic ∨
      ∃ i, i < enums.length - 1 ∧
        get_values_from_property ts ex enums r =
          .ok (some (AnyValue.str (enums.getD i "")))) ∧
    (get_values_from_property (.single .string) none [] r =
       .ok (some (AnyValue.str "asd"))) ∧
    (get_values_from_property (.single .number) none [] r =
       .ok (some (AnyValue.f64 (1.2 : Rat)))) ∧
    (get_values_from_property (.single .integer) none [] r =
       .ok (some (AnyValue.i32 1))) ∧
    (get_values_from_property (.single .boolean) none [] r =
       .ok (some (AnyValue.boolv true))) := by
  refine ⟨?_, ?_, rfl, rfl, rfl, rfl⟩
  · intro e he
    subst he
    rfl
  · intro hex hne
    subst hex
    rcases Nat.lt_or_ge enums.length 2 with h1 | h2
    · left
      have hlen : enums.length = 1 := by
        cases enums with
        | nil => exact absurd rfl hne
        | cons a t => simp only [List.length_cons] at h1 ⊢; omega
      exact (enum_selection_excludes_last enums ts r).2 hlen
    · right
      obtain ⟨heq, hlt, -, -⟩ := (enum_selection_excludes_last enums ts r).1 h2
      exact ⟨r % (enums.length - 1), hlt, heq⟩

theorem value_synthesis_order_witness :
    get_values_from_property (.single .integer) (some (.arr [.num (7 : Rat)]))
        ["a", "b"] 0 = .ok (some (AnyValue.json (.arr [.num (7 : Rat)]))) ∧
    (get_values_from_property (.single .integer) none ["a", "b"] 0 = .error .panic ∨
      ∃ i, i < (["a", "b"] : List String).length - 1 ∧
        get_values_from_property (.single .integer) none ["a", "b"] 0 =
          .ok (some (AnyValue.str ((["a", "b"] : List String).getD i "")))) := by
  constructor
  · exact (value_synthesis_order (.single .integer) (some (.arr [.num (7 : Rat)]))
      ["a", "b"] 0).1 _ rfl
  · exact (value_synthesis_order (.single .integer) none ["a", "b"] 0).2.1 rfl
      (by decide)

theorem insert_fresh_ok (v : PropertyValue) :
    ∀ keys, keys ≠ [] → ∃ x, insert_nested_value [] keys v = .ok x := by
  intro keys
  induction keys with
  | nil => intro h; exact absurd rfl h
  | cons k0 rest ih =>
    intro _
    cases hrest : rest with
    | nil => exact ⟨_, rfl⟩
    | cons r0 rr =>
      obtain ⟨x, hx⟩ := ih (by rw [hrest]; simp)
      rw [hrest] at hx
      by_cases ha : hasArraySuffix k0 = true
      · refine ⟨mapSet [] (beforeDollar k0) (.arr [Json.obj x]), ?_⟩
        rw [insert_nested_value.eq_def]
        simp only [List.isEmpty_cons, Bool.false_eq_true, if_false, ha, if_true, mapGet]
        rw [hx]
      · refine ⟨mapSet [] k0 (.obj x), ?_⟩
        rw [insert_nested_value.eq_def]
        simp only [Bool.not_eq_true] at ha
        simp only [List.isEmpty_cons, Bool.false_eq_true, if_false, ha, mapGet]
        rw [hx]

/-- C4 (counterexample): an array-marked segment in *final* position does not
produce an array at all — the flat table `{"foo$array" ↦ 1}` reconstructs to
`{"foo": 1}`, whose value under `"foo"` is the number `1`, not a
one-element array. -/
theorem reconstruct_final_array_segment_not_array :
    create_valid_json_from_hashmap [("foo$array", ⟨none, some 1, none, none, none⟩)] =
      .ok [("foo", Json.num (1 : Rat))] ∧
    ∀ elems, Json.num (1 : Rat) ≠ Json.arr elems := by
  exact ⟨by decide, fun elems h => by cases h⟩

/-- C4 (amended): for an array-marked segment in *non-final* position,
reconstruction yields an array of length exactly one: a fresh insertion
creates a one-element array holding one object; an insertion through an
already-created array reuses its first element and preserves its length (in
particular a one-element array never grows); and sibling leaves sharing the
same array-marked segment merge into that single element (shown by the
two-key reconstruction).  An array-marked *final* segment instead stores the
leaf value directly under the stripped key (see the counterexample). -/
theorem reconstruct_array_segment_singleton (m : List (String × Json))
    (k0 : String) (rest : List String) (v v1 v2 : PropertyValue)
    (hrest : rest ≠ []) (ha : hasArraySuffix k0 = true) :
    (mapGet m (beforeDollar k0) = none →
      ∃ x, insert_nested_value [] rest v = .ok x ∧
        insert_nested_value m (k0 :: rest) v =
          .ok (mapSet m (beforeDollar k0) (.arr [Json.obj x]))) ∧
    (∀ x0 erest x',
      mapGet m (beforeDollar k0) = some (.arr (Json.obj x0 :: erest)) →
      insert_nested_value x0 rest v = .ok x' →
      insert_nested_value m (k0 :: rest) v =
        .ok (mapSet m (beforeDollar k0) (.arr (Json.obj x' :: erest)))) ∧
    create_valid_json_from_hashmap [("a$array.x", v1), ("a$array.y", v2)] =
      .ok [("a", .arr [.obj [("x", v1.toJson), ("y", v2.toJson)]])] := by
  obtain ⟨r0, rr, hr⟩ : ∃ r0 rr, rest = r0 :: rr := by
    cases rest with
    | nil => exact absurd rfl hrest
    | cons r0 rr => exact ⟨r0, rr, rfl⟩
  subst hr
  refine ⟨?_, ?_, ?_⟩
  · intro hget
    obtain ⟨x, hx⟩ := insert_fresh_ok v (r0 :: rr) (by simp)
    refine ⟨x, hx, ?_⟩
    rw [insert_nested_value.eq_def]
    simp only [List.isEmpty_cons, Bool.false_eq_true, if_false, ha, if_true, hget]
    rw [hx]
  · intro x0 erest x' hget hins
    rw [insert_nested_value.eq_def]
    simp only [List.isEmpty_cons, Bool.false_eq_true, if_false, ha, if_true, hget]
    rw [hins]
  · rfl

theorem reconstruct_array_segment_singleton_witness :
    (∃ x, insert_nested_value [] ["x"] ⟨none, some 1, none, none, none⟩ = .ok x ∧
      insert_nested_value [] ["a$array", "x"] ⟨none, some 1, none, none, none⟩ =
        .ok (mapSet [] "a" (.arr [Json.obj x]))) ∧
    insert_nested_value [("a", .arr [Json.obj [("x", Json.num (1 : Rat))]])]
        ["a$array", "y"] ⟨none, some 2, none, none, none⟩ =
      .ok (mapSet [("a", .arr [Json.obj [("x", Json.num (1 : Rat))]])] "a"
        (.arr [Json.obj [("x", Json.num (1 : Rat)), ("y", Json.num (2 : Rat))]])) := by
  constructor
  · have h := (reconstruct_array_segment_singleton [] "a$array" ["x"]
      ⟨none, some 1, none, none, none⟩ ⟨none, some 1, none, none, none⟩
      ⟨none, some 2, none, none, none⟩ (by simp) (by decide)).1 (by decide)
    simpa [beforeDollar] using h
  · have h := (reconstruct_array_segment_singleton
      [("a", .arr [Json.obj [("x", Json.num (1 : Rat))]])] "a$array" ["y"]
      ⟨none, some 2, none, none, none⟩ ⟨none, some 1, none, none, none⟩
      ⟨none, some 2, none, none, none⟩ (by simp) (by decide)).2.1
      [("x", Json.num (1 : Rat))] [] [("x", Json.num (1 : Rat)), ("y", Json.num (2 : Rat))]
      (by decide) (by decide)
    simpa [beforeDollar] using h

/-- Key membership in a JSON object's entry list. -/
def keyMem (k : String) (l : List (String × Json)) : Bool :=
  l.any (fun p => p.1 = k)

mutual

/-- Deep well-formedness of a JSON value: every object along any chain of
object entries has duplicate-free keys.  Every value produced by parsing
JSON text satisfies this (serde maps cannot hold duplicate keys). -/
def jsonWF : Json → Bool
  | .obj l => objWF l
  | _ => true

def objWF : List (String × Json) → Bool
  | [] => true
  | (k, v) :: rest => !keyMem k rest && jsonWF v && objWF rest

end

/-- The specification-side notion of a structurally missing key:
`MissingEx actual expected` holds when some key of the expected object is
absent from the actual object, at the top level or recursively inside an
entry whose value is an object on both sides. -/
inductive MissingEx : List (String × Json) → List (String × Json) → Prop where
  | here {actual expected : List (String × Json)} (k : String) (ev : Json) :
      (k, ev) ∈ expected → mapGet actual k = none → MissingEx actual expected
  | there {actual expected : List (String × Json)} (k : String)
      (ao eo : List (String × Json)) :
      (k, Json.obj eo) ∈ expected → mapGet actual k = some (Json.obj ao) →
      MissingEx ao eo → MissingEx actual expected

theorem mapGet_ne_none_of_mem {l : List (String × Json)} {k : String} {v : Json}
    (h : (k, v) ∈ l) : mapGet l k ≠ none := by
  induction l with
  | nil => cases h
  | cons hd tl ih =>
    obtain ⟨k', v'⟩ := hd
    rcases List.mem_cons.mp h with heq | htl
    · obtain ⟨hk, hv⟩ := Prod.mk.injEq .. ▸ heq
      simp [mapGet, hk.symm]
    · by_cases hk : k' = k
      · simp [mapGet, hk]
      · simpa [mapGet, hk] using ih htl

theorem keyMem_of_mem {l : List (String × Json)} {k : String} {v : Json}
    (h : (k, v) ∈ l) : keyMem k l = true := by
  simp only [keyMem, List.any_eq_true]
  exact ⟨(k, v), h, by simp⟩

theorem mapGet_eq_of_mem_wf {l : List (String × Json)} (hwf : objWF l = true)
    {k : String} {v : Json} (h : (k, v) ∈ l) : mapGet l k = some v := by
  induction l with
  | nil => cases h
  | cons hd tl ih =>
    obtain ⟨k', v'⟩ := hd
    simp only [objWF, Bool.and_eq_true, Bool.not_eq_true'] at hwf
    obtain ⟨⟨hnm, _⟩, hwtl⟩ := hwf
    rcases List.mem_cons.mp h with heq | htl
    · obtain ⟨hk, hv⟩ := Prod.mk.injEq .. ▸ heq
      simp [mapGet, hk.symm, hv.symm]
    · have hk : k' ≠ k := by
        intro hkk
        subst hkk
        exact absurd (keyMem_of_mem htl) (by simp [hnm])
      simpa [mapGet, hk] using ih hwtl htl

theorem jsonWF_of_mem_wf {l : List (String × Json)} (hwf : objWF l = true)
    {k : String} {v : Json} (h : (k, v) ∈ l) : jsonWF v = true := by
  induction l with
  | nil => cases h
  | cons hd tl ih =>
    obtain ⟨k', v'⟩ := hd
    simp only [objWF, Bool.and_eq_true] at hwf
    obtain ⟨⟨_, hwv⟩, hwtl⟩ := hwf
    rcases List.mem_cons.mp h with heq | htl
    · obtain ⟨hk, hv⟩ := Prod.mk.injEq .. ▸ heq
      exact hv ▸ hwv
    · exact ih hwtl htl

theorem missingEx_not_self : ∀ {a e : List (String × Json)},
    MissingEx a e → a = e → objWF e = true → False := by
  intro a e h
  induction h with
  | here k ev hmem hget =>
    intro heq _
    subst heq
    exact mapGet_ne_none_of_mem hmem hget
  | there k ao eo hmem hget _ ih =>
    intro heq hwf
    subst heq
    have hsome := mapGet_eq_of_mem_wf hwf hmem
    rw [hget] at hsome
    have hao : ao = eo := by
      injection hsome with hsome'
      injection hsome'
    have hwfeo : objWF eo = true := by
      have := jsonWF_of_mem_wf hwf hmem
      simpa [jsonWF] using this
    exact ih hao hwfeo

theorem cd_ne_nil_here {actual : List (String × Json)} (k : String) (ev : Json) :
    ∀ expected, (k, ev) ∈ expected → mapGet actual k = none →
      check_difference actual expected ≠ [] := by
  intro expected
  induction expected with
  | nil => intro h; cases h
  | cons hd tl ih =>
    intro hmem hget
    obtain ⟨k', ev'⟩ := hd
    rcases List.mem_cons.mp hmem with heq | htl
    · obtain ⟨hk, hv⟩ := Prod.mk.injEq .. ▸ heq
      subst hk
      simp [check_difference, hget]
    · have htlne := ih htl hget
      simp only [check_difference, ne_eq, List.append_eq_nil]
      intro ⟨_, hcontra⟩
      exact htlne hcontra

theorem cd_ne_nil_there {actual : List (String × Json)} (k : String)
    (ao eo : List (String × Json))
    (hget : mapGet actual k = some (.obj ao))
    (hne : Json.obj ao ≠ Json.obj eo)
    (hsub : check_difference ao eo ≠ []) :
    ∀ expected, (k, Json.obj eo) ∈ expected →
      check_difference actual expected ≠ [] := by
  intro expected
  induction expected with
  | nil => intro h; cases h
  | cons hd tl ih =>
    intro hmem
    obtain ⟨k', ev'⟩ := hd
    rcases List.mem_cons.mp hmem with heq | htl
    · obtain ⟨hk, hv⟩ := Prod.mk.injEq .. ▸ heq
      subst hk
      subst hv
      simp only [check_difference, hget, if_neg hne, check_difference_value, ne_eq,
        List.append_eq_nil]
      intro ⟨hcontra, _⟩
      exact hsub hcontra
    · have htlne := ih htl
      simp only [check_difference, ne_eq, List.append_eq_nil]
      intro ⟨_, hcontra⟩
      exact htlne hcontra

theorem missing_reported : ∀ {actual expected : List (String × Json)},
    MissingEx actual expected → objWF expected = true →
    check_difference actual expected ≠ [] := by
  intro a e h
  induction h with
  | here k ev hmem hget =>
    intro _
    exact cd_ne_nil_here k ev _ hmem hget
  | there k ao eo hmem hget hsub ih =>
    intro hwf
    have hwfeo : objWF eo = true := by
      have := jsonWF_of_mem_wf hwf hmem
      simpa [jsonWF] using this
    have hne : Json.obj ao ≠ Json.obj eo := by
      intro hJ
      have hao : ao = eo := by injection hJ
      exact missingEx_not_self hsub hao hwfeo
    exact cd_ne_nil_there k ao eo hget hne (ih hwfeo) _ hmem

theorem missingEx_mono {actual rest : List (String × Json)}
    (hd : String × Json) (h : MissingEx actual rest) :
    MissingEx actual (hd :: rest) := by
  induction h with
  | here k ev hmem hget => exact MissingEx.here k ev (List.mem_cons_of_mem _ hmem) hget
  | there k ao eo hmem hget hsub _ =>
    exact MissingEx.there k ao eo (List.mem_cons_of_mem _ hmem) hget hsub

theorem missing_of_reported_bounded : ∀ n : Nat,
    ∀ expected actual : List (String × Json), sizeOf expected ≤ n →
    check_difference actual expected ≠ [] → MissingEx actual expected := by
  intro n
  induction n with
  | zero =>
    intro expected actual hsz h
    cases expected with
    | nil => simp [check_difference] at h
    | cons hd tl => simp at hsz
  | succ n ih =>
    intro expected actual hsz h
    cases expected with
    | nil => simp [check_difference] at h
    | cons hd tl =>
      obtain ⟨k, ev⟩ := hd
      have hsztl : sizeOf tl ≤ n := by
        have h1 : sizeOf ((k, ev) :: tl) = 1 + sizeOf (k, ev) + sizeOf tl :=
          List.cons.sizeOf_spec _ _
        have h2 : sizeOf (k, ev) = 1 + sizeOf k + sizeOf ev := Prod.mk.sizeOf_spec _ _
        omega
      rcases hget : mapGet actual k with _ | av
      · exact MissingEx.here k ev (List.mem_cons_self _ _) hget
      · by_cases heq : av = ev
        · have htl : check_difference actual tl ≠ [] := by
            simpa [check_difference, hget, heq] using h
          exact missingEx_mono _ (ih tl actual hsztl htl)
        · rcases hhead : check_difference_value av ev with _ | ⟨m0, mrest⟩
          · have htl : check_difference actual tl ≠ [] := by
              simpa [check_difference, hget, if_neg heq, hhead] using h
            exact missingEx_mono _ (ih tl actual hsztl htl)
          · cases av with
            | obj ao =>
              cases ev with
              | obj eo =>
                have hsub : check_difference ao eo ≠ [] := by
                  simp only [check_difference_value] at hhead
                  simp [hhead]
                have hszeo : sizeOf eo ≤ n := by
                  have h1 : sizeOf ((k, Json.obj eo) :: tl) =
                      1 + sizeOf (k, Json.obj eo) + sizeOf tl :=
                    List.cons.sizeOf_spec _ _
                  have h2 : sizeOf (k, Json.obj eo) =
                      1 + sizeOf k + sizeOf (Json.obj eo) := Prod.mk.sizeOf_spec _ _
                  have h3 : sizeOf (Json.obj eo) = 1 + sizeOf eo := Json.obj.sizeOf_spec _
                  omega
                exact MissingEx.there k ao eo (List.mem_cons_self _ _) hget
                  (ih eo ao hszeo hsub)
              | null => simp [check_difference_value] at hhead
              | bool b => simp [check_difference_value] at hhead
              | num q => simp [check_difference_value] at hhead
              | str s => simp [check_difference_value] at hhead
              | arr l => simp [check_difference_value] at hhead
            | null => simp [check_difference_value] at hhead
            | bool b => simp [check_difference_value] at hhead
            | num q => simp [check_difference_value] at hhead
            | str s => simp [check_difference_value] at hhead
            | arr l => simp [check_difference_value] at hhead

theorem missing_of_reported {actual expected : List (String × Json)}
    (h : check_difference actual expected ≠ []) : MissingEx actual expected :=
  missing_of_reported_bounded (sizeOf expected) expected actual le_rfl h

/-- C3: for top-level JSON objects whose expected side has duplicate-free
keys at every depth, `validate_request` fails exactly when some key of the
expected object is absent from the actual object — checked at the top level
and recursively inside entries holding objects on both sides
(`MissingEx`) — and any failure message is exactly `"Missing keys: "`
followed by the comma-joined reported keys (local names only).  Keys present
only in the actual object and value mismatches at shared keys never cause a
failure (the failure condition is equivalent to `MissingEx`, which mentions
neither).  In particular the three concrete examples of the claim hold. -/
theorem validate_request_missing_keys (ro : RequestObject)
    (expected actual : List (String × Json))
    (hbody : ro.body = some (.obj expected))
    (hwf : objWF expected = true) :
    ((∃ msg, validate_request ro (some (.obj actual)) = .ok (.error ⟨msg⟩)) ↔
      MissingEx actual expected) ∧
    (∀ err, validate_request ro (some (.obj actual)) = .ok (.error err) →
      err.error_message =
        "Missing keys: " ++ joinCommaSep (check_difference actual expected)) ∧
    validate_request ⟨[], [], some (.obj [("a", Json.num 1), ("b", Json.num 2)])⟩
        (some (.obj [("a", Json.num 1)])) = .ok (.error ⟨"Missing keys: b"⟩) ∧
    validate_request ⟨[], [], some (.obj [("a", Json.num 1)])⟩
        (some (.obj [("a", Json.num 1), ("z", Json.num 9)])) = .ok (.ok true) ∧
    validate_request ⟨[], [], some (.obj [("a", .obj [("c", Json.num 1)])])⟩
        (some (.obj [("a", .obj [])])) = .ok (.error ⟨"Missing keys: c"⟩) := by
  refine ⟨?_, ?_, by decide, by decide, by decide⟩
  · constructor
    · rintro ⟨msg, hmsg⟩
      simp only [validate_request, hbody] at hmsg
      by_cases heq : actual = expected
      · simp [heq] at hmsg
      · simp only [if_neg heq] at hmsg
        by_cases hmt : (check_difference actual expected).isEmpty = true
        · simp [hmt] at hmsg
        · exact missing_of_reported (by simpa using hmt)
    · intro hmiss
      have hne : check_difference actual expected ≠ [] := missing_reported hmiss hwf
      have hneq : actual ≠ expected := by
        intro heq
        exact missingEx_not_self hmiss heq hwf
      refine ⟨"Missing keys: " ++ joinCommaSep (check_difference actual expected), ?_⟩
      simp [validate_request, hbody, if_neg hneq, hne]
  · intro err herr
    simp only [validate_request, hbody] at herr
    by_cases heq : actual = expected
    · simp [heq] at herr
    · simp only [if_neg heq] at herr
      by_cases hmt : (check_difference actual expected).isEmpty = true
      · simp [hmt] at herr
      · simp only [hmt, Bool.false_eq_true, if_false, Except.ok.injEq,
          Except.error.injEq] at herr
        rw [← herr]

theorem validate_request_missing_keys_witness :
    ((∃ msg, validate_request ⟨[], [], some (.obj [("a", Json.num 1)])⟩
        (some (.obj [])) = .ok (.error ⟨msg⟩)) ↔ MissingEx [] [("a", Json.num 1)]) ∧
    (∀ err, validate_request ⟨[], [], some (.obj [("a", Json.num 1)])⟩
        (some (.obj [])) = .ok (.error err) →
      err.error_message =
        "Missing keys: " ++ joinCommaSep (check_difference [] [("a", Json.num 1)])) ∧
    validate_request ⟨[], [], some (.obj [("a", Json.num 1), ("b", Json.num 2)])⟩
        (some (.obj [("a", Json.num 1)])) = .ok (.error ⟨"Missing keys: b"⟩) ∧
    validate_request ⟨[], [], some (.obj [("a", Json.num 1)])⟩
        (some (.obj [("a", Json.num 1), ("z", Json.num 9)])) = .ok (.ok true) ∧
    validate_request ⟨[], [], some (.obj [("a", .obj [("c", Json.num 1)])])⟩
        (some (.obj [("a", .obj [])])) = .ok (.error ⟨"Missing keys: c"⟩) :=
  validate_request_missing_keys ⟨[], [], some (.obj [("a", Json.num 1)])⟩
    [("a", Json.num 1)] [] rfl (by decide)

theorem serveLoop_skip (m : Method) (url : String) (body : Option Json) :
    ∀ pre tail, (∀ q ∈ pre, ¬(m = q.method ∧ url = q.path)) →
    serveLoop (pre ++ tail) m url body = serveLoop tail m url body := by
  intro pre
  induction pre with
  | nil => intro tail _; rfl
  | cons q qs ih =>
    intro tail h
    have hq : ¬(m = q.method ∧ url = q.path) := h q (List.mem_cons_self _ _)
    have hqs : ∀ q' ∈ qs, ¬(m = q'.method ∧ url = q'.path) :=
      fun q' hmem => h q' (List.mem_cons_of_mem _ hmem)
    simp only [List.cons_append, serveLoop, if_neg hq]
    exact ih tail hqs

theorem serveLoop_nomatch (m : Method) (url : String) (body : Option Json) :
    ∀ paths, (∀ p ∈ paths, ¬(m = p.method ∧ url = p.path)) →
    serveLoop paths m url body = .ok ⟨404, none, .empty⟩ := by
  intro paths h
  have := serveLoop_skip m url body paths [] h
  simpa using this

theorem serveLoop_status (m : Method) (url : String) (body : Option Json) :
    ∀ paths r, serveLoop paths m url body = .ok r →
    r.status = 200 ∨ r = ⟨404, none, .empty⟩ := by
  intro paths
  induction paths with
  | nil =>
    intro r h
    simp only [serveLoop, Except.ok.injEq] at h
    exact Or.inr h.symm
  | cons p rest ih =>
    intro r h
    by_cases hm : (m = p.method ∧ url = p.path)
    · obtain ⟨hm1, hm2⟩ := hm
      subst hm1
      subst hm2
      by_cases hp : p.method = Method.POST
      · rw [hp] at ih
        rcases hro : p.request_object with _ | ro
        · simp [serveLoop, hp, hro] at h
        · rcases hv : validate_request ro body with e | v
          · simp [serveLoop, hp, hro, hv] at h
          · rcases v with err | b
            · simp [serveLoop, hp, hro, hv] at h
              subst h
              exact Or.inl rfl
            · rcases hresp : p.response_object with _ | ro2
              · simp [serveLoop, hp, hro, hv, hresp] at h
                exact ih r h
              · simp [serveLoop, hp, hro, hv, hresp] at h
                subst h
                exact Or.inl rfl
      · rcases hresp : p.response_object with _ | ro2
        · simp [serveLoop, hp, hresp] at h
          exact ih r h
        · simp [serveLoop, hp, hresp] at h
          subst h
          exact Or.inl rfl
    · simp only [serveLoop, if_neg hm] at h
      exact ih r h

/-- C7: a matched POST route whose body validation fails is answered with
HTTP status 200 (not 4xx) carrying exactly the validator's error message as
its body; and validation failure is the only error kind surfaced as an HTTP
response — every response `echo` produces has status 200 (a served body,
`"No response"`, or a validation message) or is the empty 404, while
schema/type errors become panics, never responses. -/
theorem post_validation_failure_served_200 :
    (∀ (spec : Spec) (rng : String → Nat) (m : Method) (url : String)
       (body : Option Json) (paths : List RoutePath)
       (pre : List RoutePath) (p : RoutePath) (rest' : List RoutePath)
       (ro : RequestObject) (err : ValidationError),
       get_paths_from_spec spec rng = .ok paths →
       paths = pre ++ p :: rest' →
       (∀ q ∈ pre, ¬(m = q.method ∧ url = q.path)) →
       m = p.method → url = p.path →
       p.method = Method.POST →
       p.request_object = some ro →
       validate_request ro body = .ok (.error err) →
       echo spec rng m url body =
         .ok ⟨200, some "application/json", .literal err.error_message⟩) ∧
    (∀ (spec : Spec) (rng : String → Nat) (m : Method) (url : String)
       (body : Option Json) (r : HttpResponse),
       echo spec rng m url body = .ok r →
       r.status = 200 ∨ r = ⟨404, none, .empty⟩) := by
  constructor
  · intro spec rng m url body paths pre p rest' ro err hpaths hsplit hskip hm hurl
      hpost hro hval
    subst hm
    subst hurl
    simp only [echo, hpaths]
    rw [hsplit, serveLoop_skip p.method p.path body pre (p :: rest') hskip]
    simp [serveLoop, hpost, hro, hval]
  · intro spec rng m url body r h
    simp only [echo] at h
    rcases hpaths : get_paths_from_spec spec rng with e | paths
    · rw [hpaths] at h; cases h
    · rw [hpaths] at h
      exact serveLoop_status m url body paths r h

/-- An integer-typed scalar leaf, used by the concrete route fixtures. -/
def wIntLeaf : ObjectSchema := .mk (some (.single .integer)) [] [] none [] none

/-- The schema `{type: object, required: [id], properties: {id: integer}}`. -/
def wIdSchema : ObjectSchema :=
  .mk (some (.single .object)) [("id", .inline wIntLeaf)] ["id"] none [] none

def wJsonContent : List (String × MediaType) :=
  [("application/json", ⟨some (.inline wIdSchema)⟩)]

def wOpGet : Operation := ⟨none, [("200", ⟨wJsonContent⟩)]⟩

def wOpPost : Operation := ⟨some (.inline ⟨wJsonContent⟩), [("200", ⟨wJsonContent⟩)]⟩

def wSpecGood : Spec := ⟨some [("/a", ⟨some wOpGet, none, none, none, none⟩)]⟩

def wSpecPost : Spec := ⟨some [("/p", ⟨none, some wOpPost, none, none, none⟩)]⟩

/-- A schema whose (required) property holds a dangling reference: body
synthesis panics on it. -/
def wBadSchema : ObjectSchema :=
  .mk (some (.single .object)) [("x", .dangling "ref")] ["x"] none [] none

def wOpBad : Operation :=
  ⟨none, [("200", ⟨[("application/json", ⟨some (.inline wBadSchema)⟩)]⟩)]⟩

/-- Two routes: a well-formed one and one whose schema is malformed. -/
def wSpecTwo : Spec :=
  ⟨some [("/a", ⟨some wOpGet, none, none, none, none⟩),
         ("/b", ⟨some wOpBad, none, none, none, none⟩)]⟩

/-- An operation declaring a 200 response with `application/json` content
but no schema field. -/
def wOpNoSchema : Operation := ⟨none, [("200", ⟨[("application/json", ⟨none⟩)]⟩)]⟩

def wSpecNoSchema : Spec := ⟨some [("/a", ⟨some wOpNoSchema, none, none, none, none⟩)]⟩

/-- An operation whose 200 response's schema is a dangling reference. -/
def wOpDangling : Operation :=
  ⟨none, [("200", ⟨[("application/json", ⟨some (.dangling "nope")⟩)]⟩)]⟩

theorem post_validation_failure_served_200_witness :
    echo wSpecPost (fun _ => 0) .POST "/p" (some (.obj [])) =
      .ok ⟨200, some "application/json", .literal "Missing keys: id"⟩ :=
  (post_validation_failure_served_200).1 wSpecPost (fun _ => 0) .POST "/p"
    (some (.obj []))
    [⟨some ⟨[], [], some (.obj [("id", Json.num 1)])⟩,
      some ⟨some (.obj [("id", Json.num 1)]), some 200⟩, "/p", .POST⟩]
    []
    ⟨some ⟨[], [], some (.obj [("id", Json.num 1)])⟩,
      some ⟨some (.obj [("id", Json.num 1)]), some 200⟩, "/p", .POST⟩
    []
    ⟨[], [], some (.obj [("id", Json.num 1)])⟩ ⟨"Missing keys: id"⟩
    (by decide) rfl (by simp) rfl rfl rfl rfl (by decide)

theorem buildPart_shape (rng : String → Nat) (s : String) (m : Method) :
    ∀ opOpt l, buildPart rng s m opOpt = .ok l →
      ∀ p ∈ l, p.method = m ∧ p.path = s := by
  intro opOpt l h p hp
  cases opOpt with
  | none =>
    simp only [buildPart, Except.ok.injEq] at h
    subst h
    cases hp
  | some op =>
    simp only [buildPart] at h
    rcases hro : get_response_object_schema_by_operation op rng with e | ro
    · rw [hro] at h; cases h
    · rw [hro] at h
      rcases hrq : get_request_object_schema_by_operation op rng with e | rq
      · rw [hrq] at h; cases h
      · rw [hrq] at h
        simp only [Except.ok.injEq] at h
        subst h
        have hsing := List.mem_singleton.mp hp
        subst hsing
        exact ⟨rfl, rfl⟩

theorem buildPaths_methods (rng : String → Nat) :
    ∀ ps paths, buildPaths rng ps = .ok paths →
      ∀ p ∈ paths, p.method = Method.GET ∨ p.method = Method.POST := by
  intro ps
  induction ps with
  | nil =>
    intro paths h p hp
    simp only [buildPaths, Except.ok.injEq] at h
    subst h
    cases hp
  | cons hd tl ih =>
    intro paths h p hp
    obtain ⟨path_str, item⟩ := hd
    simp only [buildPaths] at h
    rcases hg : buildPart rng path_str .GET item.get with e | gets
    · rw [hg] at h; cases h
    · rw [hg] at h
      rcases hpo : buildPart rng path_str .POST item.post with e | posts
      · rw [hpo] at h; cases h
      · rw [hpo] at h
        rcases ht : buildPaths rng tl with e | rest'
        · rw [ht] at h; cases h
        · rw [ht] at h
          simp only [Except.ok.injEq] at h
          subst h
          rcases List.mem_append.mp hp with hgp | hrest
          · rcases List.mem_append.mp hgp with hgp' | hpp
            · exact Or.inl (buildPart_shape rng path_str .GET item.get gets hg p hgp').1
            · exact Or.inr (buildPart_shape rng path_str .POST item.post posts hpo p hpp).1
          · exact ih rest' ht p hrest

/-- C10: the per-request route table holds only GET and POST entries — one
per declared GET/POST operation — so a request using any other HTTP method
(PUT, DELETE, PATCH) never matches and always receives the 404 response with
an empty body, whatever operations the spec declares for those methods. -/
theorem route_table_get_post_only (spec : Spec) (rng : String → Nat)
    (paths : List RoutePath)
    (hpaths : get_paths_from_spec spec rng = .ok paths) :
    (∀ p ∈ paths, p.method = Method.GET ∨ p.method = Method.POST) ∧
    (∀ (m : Method) (url : String) (body : Option Json),
      m ≠ Method.GET → m ≠ Method.POST →
      echo spec rng m url body = .ok ⟨404, none, .empty⟩) := by
  have hmeth : ∀ p ∈ paths, p.method = Method.GET ∨ p.method = Method.POST := by
    rcases hps : spec.paths with _ | ps
    · simp only [get_paths_from_spec, hps, Except.ok.injEq] at hpaths
      subst hpaths
      intro p hp
      cases hp
    · simp only [get_paths_from_spec, hps] at hpaths
      exact buildPaths_methods rng ps paths hpaths
  refine ⟨hmeth, ?_⟩
  intro m url body hget hpost
  have hnm : ∀ p ∈ paths, ¬(m = p.method ∧ url = p.path) := by
    intro p hp ⟨hm, _⟩
    rcases hmeth p hp with h | h
    · exact hget (hm.trans h)
    · exact hpost (hm.trans h)
  simp only [echo, hpaths]
  exact serveLoop_nomatch m url body paths hnm

theorem route_table_get_post_only_witness :
    (∀ p ∈ [RoutePath.mk none
        (some ⟨some (.obj [("id", Json.num 1)]), some 200⟩) "/a" .GET],
      p.method = Method.GET ∨ p.method = Method.POST) ∧
    (∀ (m : Method) (url : String) (body : Option Json),
      m ≠ Method.GET → m ≠ Method.POST →
      echo wSpecGood (fun _ => 0) m url body = .ok ⟨404, none, .empty⟩) :=
  route_table_get_post_only wSpecGood (fun _ => 0)
    [RoutePath.mk none (some ⟨some (.obj [("id", Json.num 1)]), some 200⟩) "/a" .GET]
    (by decide)

/-- C8 (counterexample): a route can match a declared (method, path) pair
whose operation defines no response schema and still be answered 404 — when
the operation declares a 200 response with `application/json` content but no
schema field, the `?` operator makes its response descriptor `None`, the
matched route falls through, and the request ends in the 404 branch instead
of HTTP 200 `"No response"`. -/
theorem matched_route_without_schema_404 :
    echo wSpecNoSchema (fun _ => 0) .GET "/a" none = .ok ⟨404, none, .empty⟩ ∧
    (⟨404, none, .empty⟩ : HttpResponse) ≠
      ⟨200, some "application/json", .literal "No response"⟩ := by
  exact ⟨by decide, by decide⟩

/-- C8 (amended): a matched route whose operation declares *no 200 response
at all* is served HTTP 200 with the literal body `"No response"` (its
response descriptor exists but holds no body); a request matching no
declared route receives HTTP 404 with an empty body.  However, a matched
operation that declares a 200 response without an `application/json` schema
gets no response descriptor and falls through to 404 (see the
counterexample). -/
theorem matched_route_response_defaults :
    (∀ (operation : Operation) (rng : String → Nat),
       mapGet operation.responses "200" = none →
       get_response_object_schema_by_operation operation rng = .ok (some ⟨none, none⟩)) ∧
    (∀ (spec : Spec) (rng : String → Nat) (m : Method) (url : String)
       (body : Option Json) (paths : List RoutePath)
       (pre : List RoutePath) (p : RoutePath) (rest' : List RoutePath)
       (sc : Option Int),
       get_paths_from_spec spec rng = .ok paths →
       paths = pre ++ p :: rest' →
       (∀ q ∈ pre, ¬(m = q.method ∧ url = q.path)) →
       m = p.method → url = p.path →
       (p.method = Method.POST → ∃ ro, p.request_object = some ro ∧
          validate_request ro body = .ok (.ok true)) →
       p.response_object = some ⟨none, sc⟩ →
       echo spec rng m url body =
         .ok ⟨200, some "application/json", .literal "No response"⟩) ∧
    (∀ (spec : Spec) (rng : String → Nat) (m : Method) (url : String)
       (body : Option Json) (paths : List RoutePath),
       get_paths_from_spec spec rng = .ok paths →
       (∀ p ∈ paths, ¬(m = p.method ∧ url = p.path)) →
       echo spec rng m url body = .ok ⟨404, none, .empty⟩) := by
  refine ⟨?_, ?_, ?_⟩
  · intro operation rng h
    simp only [get_response_object_schema_by_operation, h,
      create_response_object_by_object_schema]
  · intro spec rng m url body paths pre p rest' sc hpaths hsplit hskip hm hurl
      hpost hresp
    subst hm
    subst hurl
    simp only [echo, hpaths]
    rw [hsplit, serveLoop_skip p.method p.path body pre (p :: rest') hskip]
    by_cases hp : p.method = Method.POST
    · obtain ⟨ro, hro, hval⟩ := hpost hp
      simp [serveLoop, hp, hro, hval, hresp]
    · simp [serveLoop, hp, hresp]
  · intro spec rng m url body paths hpaths hnm
    simp only [echo, hpaths]
    exact serveLoop_nomatch m url body paths hnm

theorem matched_route_response_defaults_witness :
    get_response_object_schema_by_operation ⟨none, []⟩ (fun _ => 0) =
      .ok (some ⟨none, none⟩) ∧
    echo ⟨some [("/a", ⟨some ⟨none, []⟩, none, none, none, none⟩)]⟩ (fun _ => 0)
      .GET "/a" none = .ok ⟨200, some "application/json", .literal "No response"⟩ ∧
    echo wSpecGood (fun _ => 0) .GET "/zzz" none = .ok ⟨404, none, .empty⟩ := by
  refine ⟨(matched_route_response_defaults).1 ⟨none, []⟩ (fun _ => 0) rfl, ?_, ?_⟩
  · exact (matched_route_response_defaults).2.1
      ⟨some [("/a", ⟨some ⟨none, []⟩, none, none, none, none⟩)]⟩ (fun _ => 0)
      .GET "/a" none [⟨none, some ⟨none, none⟩, "/a", .GET⟩]
      [] ⟨none, some ⟨none, none⟩, "/a", .GET⟩ [] none
      (by decide) rfl (by simp) rfl rfl (by intro h; cases h) rfl
  · exact (matched_route_response_defaults).2.2 wSpecGood (fun _ => 0) .GET "/zzz"
      none [⟨none, some ⟨some (.obj [("id", Json.num 1)]), some 200⟩, "/a", .GET⟩]
      (by decide) (by decide)

/-- C6 (counterexample): an unresolvable reference nested inside one route's
schema does not merely drop that endpoint — it panics the whole per-request
route-table construction, so even a request to the *other*, well-formed
route gets no HTTP response at all (while the same request succeeds when
the malformed route is absent). -/
theorem malformed_route_breaks_all_routes :
    echo wSpecTwo (fun _ => 0) .GET "/a" none = .error .panic ∧
    echo wSpecGood (fun _ => 0) .GET "/a" none =
      .ok ⟨200, some "application/json", .fromJson (.obj [("id", Json.num 1)])⟩ ∧
    ∀ r : HttpResponse,
      (Except.error PanicErr.panic : Except PanicErr HttpResponse) ≠ .ok r := by
  exact ⟨by decide, by decide, fun r h => by cases h⟩

/-- C6 (amended): a schema-resolution failure at the *top level* of an
operation's 200 response degrades gracefully — the endpoint keeps an empty
response descriptor and stays in the route table — but an unresolvable
reference (or missing type tag) encountered *inside* body synthesis panics
the per-request route-table construction, so a malformed schema on one route
prevents every route from serving for that request; the failure is a panic,
never an HTTP response (the endpoint is not selectively omitted). -/
theorem schema_error_propagation :
    (∀ (operation : Operation) (rng : String → Nat) (a : ResponseSpec)
       (mt : MediaType) (nm : String),
       mapGet operation.responses "200" = some a →
       mapGet a.content "application/json" = some mt →
       mt.schema = some (.dangling nm) →
       get_response_object_schema_by_operation operation rng = .ok (some ⟨none, none⟩)) ∧
    (∀ (spec : Spec) (rng : String → Nat) (e : PanicErr) (m : Method)
       (url : String) (body : Option Json),
       get_paths_from_spec spec rng = .error e →
       echo spec rng m url body = .error e) ∧
    get_paths_from_spec wSpecTwo (fun _ => 0) = .error .panic := by
  refine ⟨?_, ?_, by decide⟩
  · intro operation rng a mt nm h200 hjson hschema
    simp only [get_response_object_schema_by_operation, h200, hjson, hschema,
      SchemaRef.resolve, create_response_object_by_object_schema]
  · intro spec rng e m url body h
    simp only [echo, h]

theorem schema_error_propagation_witness :
    get_response_object_schema_by_operation wOpDangling (fun _ => 0) =
      .ok (some ⟨none, none⟩) ∧
    echo wSpecTwo (fun _ => 0) .GET "/a" none = .error .panic :=
  ⟨(schema_error_propagation).1 wOpDangling (fun _ => 0)
      ⟨[("application/json", ⟨some (.dangling "nope")⟩)]⟩
      ⟨some (.dangling "nope")⟩ "nope" rfl rfl rfl,
   (schema_error_propagation).2.1 wSpecTwo (fun _ => 0) .panic .GET "/a" none
      (by decide)⟩

/-- C9: when flattening a node with declared properties, the enum list used
to synthesize a required nested scalar property is the *outer* node's
`enum_values`, not the property's own: for any parent enum list `E` of
length at least two and any property-local enum list `F`, the synthesized
value is drawn from `E` (at the drawn index below `E`'s last entry) and the
result does not depend on `F` at all. -/
theorem nested_property_uses_outer_enum (k : String) (E F : List String)
    (rng : String → Nat) (h2 : 2 ≤ E.length) :
    get_body_by_object_schema
        (.mk (some (.single .object))
          [(k, .inline (.mk (some (.single .string)) [] [] none F none))]
          [k] none E none) rng =
      .ok [(k, ⟨none, none, none, some (E.getD (rng k % (E.length - 1)) ""), none⟩)] := by
  have hne : E.isEmpty = false := isEmpty_false_of_two_le h2
  have hsub : E.length - 1 ≠ 0 := by omega
  have hlen : rng k % (E.length - 1) < E.length := by
    have := Nat.mod_lt (rng k) (Nat.pos_of_ne_zero hsub)
    omega
  have hfuel : get_body_by_object_schema
      (.mk (some (.single .object))
        [(k, .inline (.mk (some (.single .string)) [] [] none F none))]
        [k] none E none) rng =
      flattenLoopF rng 4
        [("", .mk (some (.single .object))
          [(k, .inline (.mk (some (.single .string)) [] [] none F none))]
          [k] none E none)] [] := rfl
  rw [hfuel]
  have hjoin : joinKey "" k = k := rfl
  simp only [flattenLoopF, ObjectSchema.properties, List.isEmpty_cons,
    Bool.false_eq_true, if_false, ObjectSchema.schema_type, ObjectSchema.required,
    ObjectSchema.enum_values, processProps, SchemaRef.resolve,
    ObjectSchema.exampleVal, hjoin, List.mem_singleton, if_pos rfl,
    is_single_property, SchemaTypeSet.setContains, get_values_from_property, hne,
    Bool.not_false, if_true, dif_neg hsub, get_property_value_object, hmInsert,
    List.reverse_nil, List.nil_append]
  rw [List.getD_eq_getElem _ _ hlen]
  simp [flattenLoopF, List.get_eq_getElem]

theorem nested_property_uses_outer_enum_witness :
    get_body_by_object_schema
        (.mk (some (.single .object))
          [("id", .inline (.mk (some (.single .string)) [] [] none ["z"] none))]
          ["id"] none ["x", "y"] none) (fun _ => 0) =
      .ok [("id", ⟨none, none, none, some "x", none⟩)] := by
  have h := nested_property_uses_outer_enum "id" ["x", "y"] ["z"] (fun _ => 0)
    (by decide)
  simpa using h

/-- A type set that is exactly one primitive scalar tag — the glossary's
"schema leaf". -/
def is_single_scalar_type : SchemaTypeSet → Bool
  | .single .string | .single .integer | .single .number | .single .boolean => true
  | _ => false

/-- The keys at which the flattener *inserts* an entry, as a relation on
(accumulated key, schema node, inserted key): an insertion happens at a
scalar-eligible node without properties (at the accumulated key itself), or
at a required scalar-eligible property whose synthesis yields a value, in
both cases reached through a chain of required non-scalar properties and
array-item dereferences. -/
inductive ReachIns : String → ObjectSchema → String → Prop where
  | bare (pre : String) (obj : ObjectSchema) (ts : SchemaTypeSet) :
      obj.properties = [] → obj.schema_type = some ts →
      is_single_property ts = true → ReachIns pre obj pre
  | viaArray (pre : String) (obj : ObjectSchema) (ts : SchemaTypeSet)
      (s : ObjectSchema) (key : String) :
      obj.properties = [] → obj.schema_type = some ts →
      ts.is_array_or_nullable_array = true → obj.items = some (.inline s) →
      ReachIns (pre ++ "$array") s key → ReachIns pre obj key
  | leaf (pre : String) (obj : ObjectSchema) (k : String) (s : ObjectSchema)
      (ts : SchemaTypeSet) :
      obj.properties ≠ [] → (k, SchemaRef.inline s) ∈ obj.properties →
      k ∈ obj.required → s.schema_type = some ts →
      is_single_property ts = true →
      synthSome ts s.exampleVal obj.enum_values = true →
      ReachIns pre obj (joinKey pre k)
  | nested (pre : String) (obj : ObjectSchema) (k : String) (s : ObjectSchema)
      (ts : SchemaTypeSet) (key : String) :
      obj.properties ≠ [] → (k, SchemaRef.inline s) ∈ obj.properties →
      k ∈ obj.required → s.schema_type = some ts →
      is_single_property ts = false →
      ReachIns (joinKey pre k) s key → ReachIns pre obj key

/-- The specification-side relation: `key` is the dotted key of a required
scalar leaf (a node whose type is a single primitive) reachable from the
node by a chain of required (non-scalar, hence recursed-into) properties and
array-item dereferences. -/
inductive ReachScalar : String → ObjectSchema → String → Prop where
  | bare (pre : String) (obj : ObjectSchema) (ts : SchemaTypeSet) :
      obj.properties = [] → obj.schema_type = some ts →
      is_single_scalar_type ts = true → ReachScalar pre obj pre
  | viaArray (pre : String) (obj : ObjectSchema) (ts : SchemaTypeSet)
      (s : ObjectSchema) (key : String) :
      obj.properties = [] → obj.schema_type = some ts →
      ts.is_array_or_nullable_array = true → obj.items = some (.inline s) →
      ReachScalar (pre ++ "$array") s key → ReachScalar pre obj key
  | leaf (pre : String) (obj : ObjectSchema) (k : String) (s : ObjectSchema)
      (ts : SchemaTypeSet) :
      obj.properties ≠ [] → (k, SchemaRef.inline s) ∈ obj.properties →
      k ∈ obj.required → s.schema_type = some ts →
      is_single_scalar_type ts = true →
      ReachScalar pre obj (joinKey pre k)
  | nested (pre : String) (obj : ObjectSchema) (k : String) (s : ObjectSchema)
      (ts : SchemaTypeSet) (key : String) :
      obj.properties ≠ [] → (k, SchemaRef.inline s) ∈ obj.properties →
      k ∈ obj.required → s.schema_type = some ts →
      is_single_property ts = false →
      ReachScalar (joinKey pre k) s key → ReachScalar pre obj key

theorem single_scalar_is_single {ts : SchemaTypeSet}
    (h : is_single_scalar_type ts = true) : is_single_property ts = true := by
  cases ts with
  | single t => cases t <;> simp_all [is_single_scalar_type, is_single_property,
      SchemaTypeSet.setContains]
  | multiple l => simp [is_single_scalar_type] at h

theorem getValues_ok_some_synthSome {ts : SchemaTypeSet} {ex : Option Json}
    {enums : List String} {r : Nat} {v : AnyValue}
    (h : get_values_from_property ts ex enums r = .ok (some v)) :
    synthSome ts ex enums = true := by
  cases ex with
  | some e => simp [synthSome]
  | none =>
    by_cases hne : enums.isEmpty
    · cases ts with
      | single t =>
        cases t <;> simp_all [get_values_from_property, synthSome, hne]
      | multiple l =>
        simp_all [get_values_from_property, synthSome, hne]
    · have hnef : enums.isEmpty = false := by simpa using hne
      by_cases hz : enums.length - 1 = 0
      · simp [get_values_from_property, hnef, hz] at h
      · simp [synthSome, hnef, hz]

theorem getValues_scalar_not_none {ts : SchemaTypeSet} {ex : Option Json}
    {enums : List String} {r : Nat}
    (hts : is_single_scalar_type ts = true) :
    get_values_from_property ts ex enums r ≠ .ok none := by
  cases ex with
  | some e => simp [get_values_from_property]
  | none =>
    by_cases hne : enums.isEmpty
    · cases ts with
      | single t =>
        cases t <;> simp_all [get_values_from_property, is_single_scalar_type, hne]
      | multiple l => simp [is_single_scalar_type] at hts
    · have hnef : enums.isEmpty = false := by simpa using hne
      by_cases hz : enums.length - 1 = 0
      · simp [get_values_from_property, hnef, hz]
      · simp [get_values_from_property, hnef, hz]

theorem resolve_eq_some {ref : SchemaRef} {s : ObjectSchema}
    (h : ref.resolve = some s) : ref = .inline s := by
  cases ref with
  | inline s' =>
    simp only [SchemaRef.resolve, Option.some.injEq] at h
    rw [h]
  | dangling nm => simp [SchemaRef.resolve] at h

theorem hmHasKey_insert (m : List (String × PropertyValue)) (k key : String)
    (v : PropertyValue) :
    hmHasKey (hmInsert m k v) key = true ↔ key = k ∨ hmHasKey m key = true := by
  induction m with
  | nil =>
    simp only [hmInsert, hmHasKey, List.any_cons, List.any_nil, Bool.or_false,
      decide_eq_true_eq, Bool.false_eq_true, or_false]
    exact eq_comm
  | cons hd tl ih =>
    obtain ⟨k', v'⟩ := hd
    by_cases hk : k' = k
    · subst hk
      simp only [hmInsert, if_true]
      simp only [hmHasKey, List.any_cons, Bool.or_eq_true, decide_eq_true_eq]
      constructor
      · rintro (h | h)
        · exact Or.inl h.symm
        · exact Or.inr (Or.inr h)
      · rintro (h | h | h)
        · exact Or.inl h.symm
        · exact Or.inl h
        · exact Or.inr h
    · simp only [hmInsert]
      rw [if_neg hk]
      simp only [hmHasKey, List.any_cons, Bool.or_eq_true, decide_eq_true_eq] at ih ⊢
      constructor
      · rintro (h | h)
        · exact Or.inr (Or.inl h)
        · rcases ih.mp h with h' | h'
          · exact Or.inl h'
          · exact Or.inr (Or.inr h')
      · rintro (h | h | h)
        · exact Or.inr (ih.mpr (Or.inl h))
        · exact Or.inl h
        · exact Or.inr (ih.mpr (Or.inr h))

theorem hmHasKey_insert_self (m : List (String × PropertyValue)) (k : String)
    (v : PropertyValue) : hmHasKey (hmInsert m k v) k = true :=
  (hmHasKey_insert m k k v).mpr (Or.inl rfl)

theorem hmHasKey_insert_mono {m : List (String × PropertyValue)} {key : String}
    (k : String) (v : PropertyValue) (h : hmHasKey m key = true) :
    hmHasKey (hmInsert m k v) key = true :=
  (hmHasKey_insert m k key v).mpr (Or.inr h)

theorem stackMeasure_append (a b : List (String × ObjectSchema)) :
    stackMeasure (a ++ b) = stackMeasure a + stackMeasure b := by
  induction a with
  | nil => simp [stackMeasure]
  | cons hd tl ih =>
    obtain ⟨p, o⟩ := hd
    simp [stackMeasure, ih]
    omega

theorem stackMeasure_reverse (l : List (String × ObjectSchema)) :
    stackMeasure l.reverse = stackMeasure l := by
  induction l with
  | nil => rfl
  | cons hd tl ih =>
    obtain ⟨p, o⟩ := hd
    simp [List.reverse_cons, stackMeasure_append, stackMeasure, ih]
    omega

theorem msizeSchema_pos (obj : ObjectSchema) : 1 ≤ msizeSchema obj := by
  cases obj
  simp [msizeSchema]
  omega

theorem msizeProps_lt_schema (obj : ObjectSchema) :
    msizeProps obj.properties < msizeSchema obj := by
  cases obj
  simp [msizeSchema, ObjectSchema.properties]
  omega

theorem msize_items_lt {obj : ObjectSchema} {s : ObjectSchema}
    (h : obj.items = some (.inline s)) : msizeSchema s < msizeSchema obj := by
  cases obj with
  | mk st props req ex ev it =>
    simp only [ObjectSchema.items] at h
    subst h
    simp [msizeSchema, msizeOptRef, msizeRef]
    omega

theorem processProps_mono (pre : String) (req enums : List String)
    (rng : String → Nat) :
    ∀ props acc acc' pushes,
      processProps pre req enums rng props acc = .ok (acc', pushes) →
      ∀ key, hmHasKey acc key = true → hmHasKey acc' key = true := by
  intro props
  induction props with
  | nil =>
    intro acc acc' pushes h key hk
    simp only [processProps, Except.ok.injEq, Prod.mk.injEq] at h
    obtain ⟨h1, _⟩ := h
    subst h1
    exact hk
  | cons hd tl ih =>
    intro acc acc' pushes h key hk
    obtain ⟨k0, ref⟩ := hd
    simp only [processProps] at h
    rcases href : ref.resolve with _ | po
    · simp only [href] at h; cases h
    · simp only [href] at h
      by_cases hreq : k0 ∈ req
      · rw [if_pos hreq] at h
        rcases hst : po.schema_type with _ | ts
        · simp only [hst] at h; cases h
        · simp only [hst] at h
          by_cases hsp : is_single_property ts = true
          · rw [if_pos hsp] at h
            rcases hgv : get_values_from_property ts po.exampleVal enums
                (rng (joinKey pre k0)) with e | vres
            · simp only [hgv] at h; cases h
            · simp only [hgv] at h
              cases vres with
              | none => exact ih _ _ _ h key hk
              | some v => exact ih _ _ _ h key (hmHasKey_insert_mono _ _ hk)
          · rw [if_neg hsp] at h
            rcases hrec : processProps pre req enums rng tl acc with e | pr
            · simp only [hrec] at h; cases h
            · simp only [hrec] at h
              obtain ⟨acc'', pushes''⟩ := pr
              simp only [Except.ok.injEq, Prod.mk.injEq] at h
              obtain ⟨h1, _⟩ := h
              subst h1
              exact ih _ _ _ hrec key hk
      · rw [if_neg hreq] at h
        exact ih _ _ _ h key hk

theorem processProps_site (pre : String) (req enums : List String)
    (rng : String → Nat) :
    ∀ props acc acc' pushes,
      processProps pre req enums rng props acc = .ok (acc', pushes) →
      ∀ k s, (k, SchemaRef.inline s) ∈ props → k ∈ req →
        ∃ ts, s.schema_type = some ts ∧
          (is_single_property ts = true →
            get_values_from_property ts s.exampleVal enums (rng (joinKey pre k)) =
                .ok none ∨
            hmHasKey acc' (joinKey pre k) = true) ∧
          (is_single_property ts = false → (joinKey pre k, s) ∈ pushes) := by
  intro props
  induction props with
  | nil =>
    intro acc acc' pushes h k s hmem
    cases hmem
  | cons hd tl ih =>
    intro acc acc' pushes h k s hmem hreqk
    obtain ⟨k0, ref⟩ := hd
    simp only [processProps] at h
    rcases href : ref.resolve with _ | po
    · simp only [href] at h; cases h
    · simp only [href] at h
      rcases List.mem_cons.mp hmem with heq | htl
      · -- head entry is our site
        obtain ⟨hk0, href0⟩ := Prod.mk.injEq .. ▸ heq
        subst hk0
        have hpo : po = s := by
          rw [← href0] at href
          simpa [SchemaRef.resolve] using href.symm
        subst hpo
        rw [if_pos hreqk] at h
        rcases hst : po.schema_type with _ | ts
        · simp only [hst] at h; cases h
        · simp only [hst] at h
          refine ⟨ts, rfl, ?_, ?_⟩
          · intro hsp
            rw [if_pos hsp] at h
            rcases hgv : get_values_from_property ts po.exampleVal enums
                (rng (joinKey pre k)) with e | vres
            · simp only [hgv] at h; cases h
            · simp only [hgv] at h
              cases vres with
              | none => exact Or.inl rfl
              | some v =>
                refine Or.inr ?_
                exact processProps_mono pre req enums rng tl _ _ _ h _
                  (hmHasKey_insert_self _ _ _)
          · intro hsp
            rw [if_neg (by simp [hsp])] at h
            rcases hrec : processProps pre req enums rng tl acc with e | pr
            · simp only [hrec] at h; cases h
            · simp only [hrec] at h
              obtain ⟨acc'', pushes''⟩ := pr
              simp only [Except.ok.injEq, Prod.mk.injEq] at h
              obtain ⟨h1, h2⟩ := h
              subst h1
              subst h2
              exact List.mem_cons_self _ _
      · -- our site is in the tail
        by_cases hreq0 : k0 ∈ req
        · rw [if_pos hreq0] at h
          rcases hst : po.schema_type with _ | ts0
          · simp only [hst] at h; cases h
          · simp only [hst] at h
            by_cases hsp0 : is_single_property ts0 = true
            · rw [if_pos hsp0] at h
              rcases hgv : get_values_from_property ts0 po.exampleVal enums
                  (rng (joinKey pre k0)) with e | vres
              · simp only [hgv] at h; cases h
              · simp only [hgv] at h
                cases vres with
                | none => exact ih _ _ _ h k s htl hreqk
                | some v => exact ih _ _ _ h k s htl hreqk
            · rw [if_neg hsp0] at h
              rcases hrec : processProps pre req enums rng tl acc with e | pr
              · simp only [hrec] at h; cases h
              · simp only [hrec] at h
                obtain ⟨acc'', pushes''⟩ := pr
                simp only [Except.ok.injEq, Prod.mk.injEq] at h
                obtain ⟨h1, h2⟩ := h
                subst h1
                obtain ⟨ts, hts, hins, hpush⟩ := ih _ _ _ hrec k s htl hreqk
                refine ⟨ts, hts, hins, ?_⟩
                intro hsp
                rw [← h2]
                exact List.mem_cons_of_mem _ (hpush hsp)
        · rw [if_neg hreq0] at h
          exact ih _ _ _ h k s htl hreqk

theorem processProps_sound (pre : String) (req enums : List String)
    (rng : String → Nat) :
    ∀ props acc acc' pushes,
      processProps pre req enums rng props acc = .ok (acc', pushes) →
      (∀ key, hmHasKey acc' key = true →
        hmHasKey acc key = true ∨
        ∃ k s ts, (k, SchemaRef.inline s) ∈ props ∧ k ∈ req ∧
          s.schema_type = some ts ∧ is_single_property ts = true ∧
          synthSome ts s.exampleVal enums = true ∧ key = joinKey pre k) ∧
      (∀ pr ∈ pushes, ∃ k s ts, (k, SchemaRef.inline s) ∈ props ∧ k ∈ req ∧
          s.schema_type = some ts ∧ is_single_property ts = false ∧
          pr = (joinKey pre k, s)) := by
  intro props
  induction props with
  | nil =>
    intro acc acc' pushes h
    simp only [processProps, Except.ok.injEq, Prod.mk.injEq] at h
    obtain ⟨h1, h2⟩ := h
    subst h1
    subst h2
    exact ⟨fun key hk => Or.inl hk, fun pr hpr => absurd hpr (List.not_mem_nil _)⟩
  | cons hd tl ih =>
    intro acc acc' pushes h
    obtain ⟨k0, ref⟩ := hd
    simp only [processProps] at h
    rcases href : ref.resolve with _ | po
    · simp only [href] at h; cases h
    · simp only [href] at h
      have hrefInline : ref = SchemaRef.inline po := resolve_eq_some href
      by_cases hreq : k0 ∈ req
      · rw [if_pos hreq] at h
        rcases hst : po.schema_type with _ | ts
        · simp only [hst] at h; cases h
        · simp only [hst] at h
          by_cases hsp : is_single_property ts = true
          · rw [if_pos hsp] at h
            rcases hgv : get_values_from_property ts po.exampleVal enums
                (rng (joinKey pre k0)) with e | vres
            · simp only [hgv] at h; cases h
            · simp only [hgv] at h
              cases vres with
              | none =>
                obtain ⟨hkeys, hpushes⟩ := ih _ _ _ h
                refine ⟨?_, ?_⟩
                · intro key hk
                  rcases hkeys key hk with hacc | ⟨k, s, ts', hmem, hr, hts, hsp', hsyn, hkey⟩
                  · exact Or.inl hacc
                  · exact Or.inr ⟨k, s, ts', List.mem_cons_of_mem _ hmem, hr, hts,
                      hsp', hsyn, hkey⟩
                · intro pr hpr
                  obtain ⟨k, s, ts', hmem, hr, hts, hsp', hpr'⟩ := hpushes pr hpr
                  exact ⟨k, s, ts', List.mem_cons_of_mem _ hmem, hr, hts, hsp', hpr'⟩
              | some v =>
                obtain ⟨hkeys, hpushes⟩ := ih _ _ _ h
                refine ⟨?_, ?_⟩
                · intro key hk
                  rcases hkeys key hk with hacc | ⟨k, s, ts', hmem, hr, hts, hsp', hsyn, hkey⟩
                  · rcases (hmHasKey_insert _ _ _ _).mp hacc with hkey0 | hacc'
                    · refine Or.inr ⟨k0, po, ts, ?_, hreq, hst, hsp, ?_, hkey0⟩
                      · rw [hrefInline] at *
                        exact List.mem_cons_self _ _
                      · exact getValues_ok_some_synthSome hgv
                    · exact Or.inl hacc'
                  · exact Or.inr ⟨k, s, ts', List.mem_cons_of_mem _ hmem, hr, hts,
                      hsp', hsyn, hkey⟩
                · intro pr hpr
                  obtain ⟨k, s, ts', hmem, hr, hts, hsp', hpr'⟩ := hpushes pr hpr
                  exact ⟨k, s, ts', List.mem_cons_of_mem _ hmem, hr, hts, hsp', hpr'⟩
          · rw [if_neg hsp] at h
            rcases hrec : processProps pre req enums rng tl acc with e | prr
            · simp only [hrec] at h; cases h
            · simp only [hrec] at h
              obtain ⟨acc'', pushes''⟩ := prr
              simp only [Except.ok.injEq, Prod.mk.injEq] at h
              obtain ⟨h1, h2⟩ := h
              subst h1
              obtain ⟨hkeys, hpushes⟩ := ih _ _ _ hrec
              refine ⟨?_, ?_⟩
              · intro key hk
                rcases hkeys key hk with hacc | ⟨k, s, ts', hmem, hr, hts, hsp', hsyn, hkey⟩
                · exact Or.inl hacc
                · exact Or.inr ⟨k, s, ts', List.mem_cons_of_mem _ hmem, hr, hts,
                    hsp', hsyn, hkey⟩
              · intro pr hpr
                rw [← h2] at hpr
                rcases List.mem_cons.mp hpr with hpr0 | hpr'
                · refine ⟨k0, po, ts, ?_, hreq, hst, ?_, hpr0⟩
                  · rw [hrefInline] at *
                    exact List.mem_cons_self _ _
                  · simpa using hsp
                · obtain ⟨k, s, ts', hmem, hr, hts, hsp', hpr''⟩ := hpushes pr hpr'
                  exact ⟨k, s, ts', List.mem_cons_of_mem _ hmem, hr, hts, hsp', hpr''⟩
      · rw [if_neg hreq] at h
        obtain ⟨hkeys, hpushes⟩ := ih _ _ _ h
        refine ⟨?_, ?_⟩
        · intro key hk
          rcases hkeys key hk with hacc | ⟨k, s, ts', hmem, hr, hts, hsp', hsyn, hkey⟩
          · exact Or.inl hacc
          · exact Or.inr ⟨k, s, ts', List.mem_cons_of_mem _ hmem, hr, hts, hsp',
              hsyn, hkey⟩
        · intro pr hpr
          obtain ⟨k, s, ts', hmem, hr, hts, hsp', hpr'⟩ := hpushes pr hpr
          exact ⟨k, s, ts', List.mem_cons_of_mem _ hmem, hr, hts, hsp', hpr'⟩

theorem processProps_pushes_measure (pre : String) (req enums : List String)
    (rng : String → Nat) :
    ∀ props acc acc' pushes,
      processProps pre req enums rng props acc = .ok (acc', pushes) →
      stackMeasure pushes ≤ msizeProps props := by
  intro props
  induction props with
  | nil =>
    intro acc acc' pushes h
    simp only [processProps, Except.ok.injEq, Prod.mk.injEq] at h
    obtain ⟨_, h2⟩ := h
    subst h2
    simp [stackMeasure, msizeProps]
  | cons hd tl ih =>
    intro acc acc' pushes h
    obtain ⟨k0, ref⟩ := hd
    simp only [processProps] at h
    rcases href : ref.resolve with _ | po
    · simp only [href] at h; cases h
    · simp only [href] at h
      have hrefInline : ref = SchemaRef.inline po := resolve_eq_some href
      have hsz : msizeProps ((k0, ref) :: tl) =
          2 + msizeSchema po + msizeProps tl := by
        rw [hrefInline]
        simp [msizeProps, msizeRef]
        omega
      by_cases hreq : k0 ∈ req
      · rw [if_pos hreq] at h
        rcases hst : po.schema_type with _ | ts
        · simp only [hst] at h; cases h
        · simp only [hst] at h
          by_cases hsp : is_single_property ts = true
          · rw [if_pos hsp] at h
            rcases hgv : get_values_from_property ts po.exampleVal enums
                (rng (joinKey pre k0)) with e | vres
            · simp only [hgv] at h; cases h
            · simp only [hgv] at h
              cases vres with
              | none => have := ih _ _ _ h; omega
              | some v => have := ih _ _ _ h; omega
          · rw [if_neg hsp] at h
            rcases hrec : processProps pre req enums rng tl acc with e | prr
            · simp only [hrec] at h; cases h
            · simp only [hrec] at h
              obtain ⟨acc'', pushes''⟩ := prr
              simp only [Except.ok.injEq, Prod.mk.injEq] at h
              obtain ⟨h1, h2⟩ := h
              subst h2
              have := ih _ _ _ hrec
              simp only [stackMeasure]
              omega
      · rw [if_neg hreq] at h
        have := ih _ _ _ h
        omega


theorem bareInsert_mono {rng : String → Nat} {pre : String} {obj : ObjectSchema}
    {ts : SchemaTypeSet} {acc acc' : List (String × PropertyValue)}
    (h : bareInsert rng pre obj ts acc = .ok acc') :
    ∀ key, hmHasKey acc key = true → hmHasKey acc' key = true := by
  intro key hk
  by_cases hsp : is_single_property ts = true
  · rw [bareInsert, if_pos hsp] at h
    rcases hgv : get_values_from_property ts obj.exampleVal obj.enum_values
        (rng pre) with e | vres
    · simp only [hgv] at h; cases h
    · simp only [hgv] at h
      cases vres with
      | none => cases h
      | some v =>
        simp only [Except.ok.injEq] at h
        rw [← h]
        exact hmHasKey_insert_mono _ _ hk
  · rw [bareInsert, if_neg hsp] at h
    simp only [Except.ok.injEq] at h
    rw [← h]
    exact hk

theorem bareInsert_sound {rng : String → Nat} {pre : String} {obj : ObjectSchema}
    {ts : SchemaTypeSet} {acc acc' : List (String × PropertyValue)}
    (h : bareInsert rng pre obj ts acc = .ok acc') :
    ∀ key, hmHasKey acc' key = true →
      hmHasKey acc key = true ∨ (key = pre ∧ is_single_property ts = true) := by
  intro key hk
  by_cases hsp : is_single_property ts = true
  · rw [bareInsert, if_pos hsp] at h
    rcases hgv : get_values_from_property ts obj.exampleVal obj.enum_values
        (rng pre) with e | vres
    · simp only [hgv] at h; cases h
    · simp only [hgv] at h
      cases vres with
      | none => cases h
      | some v =>
        simp only [Except.ok.injEq] at h
        rw [← h] at hk
        rcases (hmHasKey_insert _ _ _ _).mp hk with hkey | hacc
        · exact Or.inr ⟨hkey, hsp⟩
        · exact Or.inl hacc
  · rw [bareInsert, if_neg hsp] at h
    simp only [Except.ok.injEq] at h
    rw [← h] at hk
    exact Or.inl hk

theorem bareInsert_scalar_inserts {rng : String → Nat} {pre : String}
    {obj : ObjectSchema} {ts : SchemaTypeSet}
    {acc acc' : List (String × PropertyValue)}
    (hsp : is_single_property ts = true)
    (h : bareInsert rng pre obj ts acc = .ok acc') :
    hmHasKey acc' pre = true := by
  rw [bareInsert, if_pos hsp] at h
  rcases hgv : get_values_from_property ts obj.exampleVal obj.enum_values
      (rng pre) with e | vres
  · simp only [hgv] at h; cases h
  · simp only [hgv] at h
    cases vres with
    | none => cases h
    | some v =>
      simp only [Except.ok.injEq] at h
      rw [← h]
      exact hmHasKey_insert_self _ _ _

theorem flattenLoopF_mono (rng : String → Nat) :
    ∀ fuel stack acc table,
      flattenLoopF rng fuel stack acc = .ok table →
      ∀ key, hmHasKey acc key = true → hmHasKey table key = true := by
  intro fuel
  induction fuel with
  | zero =>
    intro stack acc table h key hk
    cases stack with
    | nil =>
      simp only [flattenLoopF, Except.ok.injEq] at h
      rw [← h]
      exact hk
    | cons hd tl => simp only [flattenLoopF] at h; cases h
  | succ fuel ih =>
    intro stack acc table h key hk
    cases stack with
    | nil =>
      simp only [flattenLoopF, Except.ok.injEq] at h
      rw [← h]
      exact hk
    | cons hd tl =>
      obtain ⟨pre, obj⟩ := hd
      simp only [flattenLoopF] at h
      by_cases hprops : obj.properties.isEmpty = true
      · rw [if_pos hprops] at h
        rcases hst : obj.schema_type with _ | ts
        · simp only [hst] at h; cases h
        · simp only [hst] at h
          rcases hbi : bareInsert rng pre obj ts acc with e | acc'
          · simp only [hbi] at h; cases h
          · simp only [hbi] at h
            have hk' := bareInsert_mono hbi key hk
            by_cases harr : ts.is_array_or_nullable_array = true
            · rw [if_pos harr] at h
              rcases hit : obj.items with _ | iref
              · simp only [hit] at h
                exact ih _ _ _ h key hk'
              · simp only [hit] at h
                rcases hres : iref.resolve with _ | s
                · simp only [hres] at h; cases h
                · simp only [hres] at h
                  exact ih _ _ _ h key hk'
            · rw [if_neg harr] at h
              exact ih _ _ _ h key hk'
      · rw [if_neg hprops] at h
        rcases hpp : processProps pre obj.required obj.enum_values rng
            obj.properties acc with e | pr
        · simp only [hpp] at h; cases h
        · simp only [hpp] at h
          obtain ⟨acc', pushes⟩ := pr
          exact ih _ _ _ h key
            (processProps_mono pre obj.required obj.enum_values rng
              obj.properties acc acc' pushes hpp key hk)

theorem isEmpty_true_iff {α : Type} {l : List α} : l.isEmpty = true ↔ l = [] := by
  cases l <;> simp [List.isEmpty]

theorem flattenLoopF_sound (rng : String → Nat) :
    ∀ fuel stack acc table,
      flattenLoopF rng fuel stack acc = .ok table →
      ∀ key, hmHasKey table key = true →
        hmHasKey acc key = true ∨
        ∃ pre obj, (pre, obj) ∈ stack ∧ ReachIns pre obj key := by
  intro fuel
  induction fuel with
  | zero =>
    intro stack acc table h key hk
    cases stack with
    | nil =>
      simp only [flattenLoopF, Except.ok.injEq] at h
      rw [← h] at hk
      exact Or.inl hk
    | cons hd tl => simp only [flattenLoopF] at h; cases h
  | succ fuel ih =>
    intro stack acc table h key hk
    cases stack with
    | nil =>
      simp only [flattenLoopF, Except.ok.injEq] at h
      rw [← h] at hk
      exact Or.inl hk
    | cons hd tl =>
      obtain ⟨pre, obj⟩ := hd
      simp only [flattenLoopF] at h
      by_cases hprops : obj.properties.isEmpty = true
      · have hpe : obj.properties = [] := isEmpty_true_iff.mp hprops
        rw [if_pos hprops] at h
        rcases hst : obj.schema_type with _ | ts
        · simp only [hst] at h; cases h
        · simp only [hst] at h
          rcases hbi : bareInsert rng pre obj ts acc with e | acc'
          · simp only [hbi] at h; cases h
          · simp only [hbi] at h
            -- helper handling what an acc'-key means at this node
            have fromAcc' : hmHasKey acc' key = true →
                hmHasKey acc key = true ∨
                ∃ pre' obj', (pre', obj') ∈ (pre, obj) :: tl ∧ ReachIns pre' obj' key := by
              intro hk'
              rcases bareInsert_sound hbi key hk' with hacc | ⟨hkey, hsp⟩
              · exact Or.inl hacc
              · subst hkey
                exact Or.inr ⟨key, obj, List.mem_cons_self _ _,
                  ReachIns.bare key obj ts hpe hst hsp⟩
            by_cases harr : ts.is_array_or_nullable_array = true
            · rw [if_pos harr] at h
              rcases hit : obj.items with _ | iref
              · simp only [hit] at h
                rcases ih _ _ _ h key hk with hk' | ⟨pre', obj', hmem, hri⟩
                · exact fromAcc' hk'
                · exact Or.inr ⟨pre', obj', List.mem_cons_of_mem _ hmem, hri⟩
              · simp only [hit] at h
                rcases hres : iref.resolve with _ | s
                · simp only [hres] at h; cases h
                · simp only [hres] at h
                  have hinline : iref = SchemaRef.inline s := resolve_eq_some hres
                  rcases ih _ _ _ h key hk with hk' | ⟨pre', obj', hmem, hri⟩
                  · exact fromAcc' hk'
                  · rcases List.mem_cons.mp hmem with heq | htl'
                    · obtain ⟨h1, h2⟩ := Prod.mk.injEq .. ▸ heq
                      rw [h1, h2] at hri
                      refine Or.inr ⟨pre, obj, List.mem_cons_self _ _, ?_⟩
                      exact ReachIns.viaArray pre obj ts s key hpe hst harr
                        (hinline ▸ hit) hri
                    · exact Or.inr ⟨pre', obj', List.mem_cons_of_mem _ htl', hri⟩
            · rw [if_neg harr] at h
              rcases ih _ _ _ h key hk with hk' | ⟨pre', obj', hmem, hri⟩
              · exact fromAcc' hk'
              · exact Or.inr ⟨pre', obj', List.mem_cons_of_mem _ hmem, hri⟩
      · have hpne : obj.properties ≠ [] := fun hcon => hprops (isEmpty_true_iff.mpr hcon)
        rw [if_neg hprops] at h
        rcases hpp : processProps pre obj.required obj.enum_values rng
            obj.properties acc with e | pr
        · simp only [hpp] at h; cases h
        · simp only [hpp] at h
          obtain ⟨acc', pushes⟩ := pr
          obtain ⟨hkeys, hpushes⟩ :=
            processProps_sound pre obj.required obj.enum_values rng
              obj.properties acc acc' pushes hpp
          rcases ih _ _ _ h key hk with hk' | ⟨pre', obj', hmem, hri⟩
          · rcases hkeys key hk' with hacc | ⟨k, s, ts, hmem', hreq, hts, hsp, hsyn, hkey⟩
            · exact Or.inl hacc
            · subst hkey
              exact Or.inr ⟨pre, obj, List.mem_cons_self _ _,
                ReachIns.leaf pre obj k s ts hpne hmem' hreq hts hsp hsyn⟩
          · rcases List.mem_append.mp hmem with hrev | htl'
            · have hpush : (pre', obj') ∈ pushes := List.mem_reverse.mp hrev
              obtain ⟨k, s, ts, hmem', hreq, hts, hsp, hpr⟩ := hpushes _ hpush
              obtain ⟨h1, h2⟩ := Prod.mk.injEq .. ▸ hpr
              rw [h1, h2] at hri
              exact Or.inr ⟨pre, obj, List.mem_cons_self _ _,
                ReachIns.nested pre obj k s ts key hpne hmem' hreq hts hsp hri⟩
            · exact Or.inr ⟨pre', obj', List.mem_cons_of_mem _ htl', hri⟩

theorem flattenLoopF_complete (rng : String → Nat) :
    ∀ fuel stack acc table,
      stackMeasure stack ≤ fuel →
      flattenLoopF rng fuel stack acc = .ok table →
      ∀ pre obj key, (pre, obj) ∈ stack → ReachScalar pre obj key →
        hmHasKey table key = true := by
  intro fuel
  induction fuel with
  | zero =>
    intro stack acc table hsz h pre obj key hmem hrs
    cases stack with
    | nil => cases hmem
    | cons hd tl =>
      obtain ⟨p0, o0⟩ := hd
      have := msizeSchema_pos o0
      simp only [stackMeasure] at hsz
      omega
  | succ fuel ih =>
    intro stack acc table hsz h pre obj key hmem hrs
    cases stack with
    | nil => cases hmem
    | cons hd tl =>
      obtain ⟨pre0, obj0⟩ := hd
      simp only [stackMeasure] at hsz
      have hpos := msizeSchema_pos obj0
      simp only [flattenLoopF] at h
      by_cases hprops : obj0.properties.isEmpty = true
      · have hpe : obj0.properties = [] := isEmpty_true_iff.mp hprops
        rw [if_pos hprops] at h
        rcases hst : obj0.schema_type with _ | ts
        · simp only [hst] at h; cases h
        · simp only [hst] at h
          rcases hbi : bareInsert rng pre0 obj0 ts acc with e | acc'
          · simp only [hbi] at h; cases h
          · simp only [hbi] at h
            by_cases harr : ts.is_array_or_nullable_array = true
            · rw [if_pos harr] at h
              rcases hit : obj0.items with _ | iref
              · simp only [hit] at h
                have hsz' : stackMeasure tl ≤ fuel := by omega
                rcases List.mem_cons.mp hmem with heq | htl
                · obtain ⟨h1, h2⟩ := Prod.mk.injEq .. ▸ heq
                  rw [h1, h2] at hrs
                  cases hrs with
                  | bare _ _ ts' hpe' hst' hscal =>
                    rw [hst] at hst'
                    injection hst' with hts
                    subst hts
                    exact flattenLoopF_mono rng fuel tl acc' table h _
                      (bareInsert_scalar_inserts (single_scalar_is_single hscal) hbi)
                  | viaArray _ _ ts' s' key0 hpe' hst' harr' hit' hsub =>
                    rw [hit] at hit'
                    cases hit'
                  | leaf _ _ k s ts' hpne' hmem' hreq hts hscal =>
                    exact absurd hpe hpne'
                  | nested _ _ k s ts' key0 hpne' hmem' hreq hts hsp hsub =>
                    exact absurd hpe hpne'
                · exact ih tl acc' table hsz' h pre obj key htl hrs
              · simp only [hit] at h
                rcases hres : iref.resolve with _ | s
                · simp only [hres] at h; cases h
                · simp only [hres] at h
                  have hinline : iref = SchemaRef.inline s := resolve_eq_some hres
                  have hlt : msizeSchema s < msizeSchema obj0 :=
                    msize_items_lt (hinline ▸ hit)
                  have hsz' : stackMeasure ((pre0 ++ "$array", s) :: tl) ≤ fuel := by
                    simp only [stackMeasure]
                    omega
                  rcases List.mem_cons.mp hmem with heq | htl
                  · obtain ⟨h1, h2⟩ := Prod.mk.injEq .. ▸ heq
                    rw [h1, h2] at hrs
                    cases hrs with
                    | bare _ _ ts' hpe' hst' hscal =>
                      rw [hst] at hst'
                      injection hst' with hts
                      subst hts
                      exact flattenLoopF_mono rng fuel _ acc' table h _
                        (bareInsert_scalar_inserts (single_scalar_is_single hscal) hbi)
                    | viaArray _ _ ts' s' key0 hpe' hst' harr' hit' hsub =>
                      rw [hit] at hit'
                      injection hit' with hs'
                      rw [hinline] at hs'
                      injection hs' with hs
                      rw [← hs] at hsub
                      exact ih _ acc' table hsz' h (pre0 ++ "$array") s key
                        (List.mem_cons_self _ _) hsub
                    | leaf _ _ k s0 ts' hpne' hmem' hreq hts hscal =>
                      exact absurd hpe hpne'
                    | nested _ _ k s0 ts' key0 hpne' hmem' hreq hts hsp hsub =>
                      exact absurd hpe hpne'
                  · exact ih _ acc' table hsz' h pre obj key
                      (List.mem_cons_of_mem _ htl) hrs
            · rw [if_neg harr] at h
              have hsz' : stackMeasure tl ≤ fuel := by omega
              rcases List.mem_cons.mp hmem with heq | htl
              · obtain ⟨h1, h2⟩ := Prod.mk.injEq .. ▸ heq
                rw [h1, h2] at hrs
                cases hrs with
                | bare _ _ ts' hpe' hst' hscal =>
                  rw [hst] at hst'
                  injection hst' with hts
                  subst hts
                  exact flattenLoopF_mono rng fuel tl acc' table h _
                    (bareInsert_scalar_inserts (single_scalar_is_single hscal) hbi)
                | viaArray _ _ ts' s' key0 hpe' hst' harr' hit' hsub =>
                  rw [hst] at hst'
                  injection hst' with hts
                  subst hts
                  exact absurd harr' harr
                | leaf _ _ k s ts' hpne' hmem' hreq hts hscal =>
                  exact absurd hpe hpne'
                | nested _ _ k s ts' key0 hpne' hmem' hreq hts hsp hsub =>
                  exact absurd hpe hpne'
              · exact ih tl acc' table hsz' h pre obj key htl hrs
      · have hpne : obj0.properties ≠ [] :=
          fun hcon => hprops (isEmpty_true_iff.mpr hcon)
        rw [if_neg hprops] at h
        rcases hpp : processProps pre0 obj0.required obj0.enum_values rng
            obj0.properties acc with e | pr
        · simp only [hpp] at h; cases h
        · simp only [hpp] at h
          obtain ⟨acc', pushes⟩ := pr
          have hm1 := processProps_pushes_measure pre0 obj0.required obj0.enum_values
            rng obj0.properties acc acc' pushes hpp
          have hm2 := msizeProps_lt_schema obj0
          have hmeas : stackMeasure (pushes.reverse ++ tl) ≤ fuel := by
            rw [stackMeasure_append, stackMeasure_reverse]
            omega
          rcases List.mem_cons.mp hmem with heq | htl
          · obtain ⟨h1, h2⟩ := Prod.mk.injEq .. ▸ heq
            rw [h1, h2] at hrs
            cases hrs with
            | bare _ _ ts' hpe' hst' hscal => exact absurd hpe' hpne
            | viaArray _ _ ts' s' key0 hpe' hst' harr' hit' hsub =>
              exact absurd hpe' hpne
            | leaf _ _ k s ts' hpne' hmem' hreq hts hscal =>
              obtain ⟨ts0, hts0, hins, hpush⟩ :=
                processProps_site pre0 obj0.required obj0.enum_values rng
                  obj0.properties acc acc' pushes hpp k s hmem' hreq
              rw [hts] at hts0
              injection hts0 with hts1
              subst hts1
              rcases hins (single_scalar_is_single hscal) with hnone | hhk
              · exact absurd hnone (getValues_scalar_not_none hscal)
              · exact flattenLoopF_mono rng fuel _ acc' table h _ hhk
            | nested _ _ k s ts' key0 hpne' hmem' hreq hts hsp hsub =>
              obtain ⟨ts0, hts0, hins, hpush⟩ :=
                processProps_site pre0 obj0.required obj0.enum_values rng
                  obj0.properties acc acc' pushes hpp k s hmem' hreq
              rw [hts] at hts0
              injection hts0 with hts1
              subst hts1
              have hmem'' : (joinKey pre0 k, s) ∈ pushes.reverse ++ tl :=
                List.mem_append.mpr (Or.inl (List.mem_reverse.mpr (hpush hsp)))
              exact ih _ acc' table hmeas h (joinKey pre0 k) s key hmem'' hsub
          · exact ih _ acc' table hmeas h pre obj key
              (List.mem_append.mpr (Or.inr htl)) hrs

/-- C1: for every root schema, when flattening succeeds the flat table
(a) contains an entry for every required scalar leaf — a node of single
primitive type reached from the root through a chain of required
(non-scalar) properties and array-item dereferences (`ReachScalar`) — and
(b) contains *only* entries whose keys arise from such required chains
(`ReachIns`, whose property steps all demand membership in the parent's
`required` set): no property outside its parent's required set, nor any of
its descendants, ever contributes an entry. -/
theorem flatten_required_scalar_leaves (root : ObjectSchema) (rng : String → Nat)
    (table : List (String × PropertyValue))
    (h : get_body_by_object_schema root rng = .ok table) :
    (∀ key, ReachScalar "" root key → hmHasKey table key = true) ∧
    (∀ key, hmHasKey table key = true → ReachIns "" root key) := by
  have h' : flattenLoopF rng (msizeSchema root) [("", root)] [] = .ok table := h
  constructor
  · intro key hrs
    exact flattenLoopF_complete rng (msizeSchema root) [("", root)] [] table
      (by simp [stackMeasure]) h' "" root key (List.mem_singleton.mpr rfl) hrs
  · intro key hk
    rcases flattenLoopF_sound rng (msizeSchema root) [("", root)] [] table h' key hk
        with hacc | ⟨pre, obj, hmem, hri⟩
    · simp [hmHasKey] at hacc
    · have hsing := List.mem_singleton.mp hmem
      obtain ⟨h1, h2⟩ := Prod.mk.injEq .. ▸ hsing
      rw [h1, h2] at hri
      exact hri

theorem flatten_required_scalar_leaves_witness :
    (∀ key, ReachScalar "" wIdSchema key →
      hmHasKey [("id", (⟨none, some 1, none, none, none⟩ : PropertyValue))] key = true) ∧
    (∀ key,
      hmHasKey [("id", (⟨none, some 1, none, none, none⟩ : PropertyValue))] key = true →
      ReachIns "" wIdSchema key) :=
  flatten_required_scalar_leaves wIdSchema (fun _ => 0)
    [("id", ⟨none, some 1, none, none, none⟩)] (by decide)
